import Mathlib

/-!
# Verification of the dependency-sorter library

A shallow embedding of `src/dependency-sorter.js` (Dependency Sorter v0.1.0):
a weighted dependency sorter based on a depth-first topological sort.

The embedding models:

* JavaScript field values (`JSVal`): the subset needed by the sorter —
  `undefined`, `null`, numbers (with signed infinities), strings, booleans,
  object references, and flat arrays of primitive values.  JavaScript strict
  equality `===` is modelled by `jsEq`; two array values are never `===`
  (distinct literals), objects compare by reference tag.
* The serializer (`serialize` / `deserialize`): wraps a record into a node
  `{id, weight, depends, node}`.  The transient `mark` field the original
  mutates in place on each wrapper is modelled as explicit traversal state
  (a list of marks parallel to the node list), which is the same information.
* `sortByDepends`: the depth-first topological sort.  The unbounded JS
  recursion is modelled with a fuel parameter; fuel exhaustion is a
  distinguished error (`Err.fuel`) proved unreachable for the fuel the
  top-level loop supplies (`nodes.length + 1`).
* `sortByWeight` with its two bounded bidirectional insertion passes, built
  from the source's `runInRange`/`swapInRange` primitives.  The pass loops
  visit the exact index sequences the source iterates (`runIdxs`), and on
  arrays of length 0 and 1 those sequences include out-of-range indices:
  there the source's callback receives `undefined` and its `node.weight`
  read throws `TypeError`, modelled as `Err.typeError` (`runPass`).  At
  in-range indices `swapInRange` appears as the two directional recursions
  `swapUpAux` / `swapDownAux` (the source dispatches on the sign of `step`
  inside one function body).
* `sortR`: the public `sort` pipeline
  (serialize → sortByDepends → sortByWeight → deserialize).
-/

namespace DepSorter

/-- JavaScript numbers as used by the sorter: the weights are only ever
compared with `<` / `>`, so an integer line extended with the two signed
infinities is a faithful model of every value the claims mention. -/
inductive JNum : Type where
  | negInf : JNum
  | fin : Int → JNum
  | posInf : JNum
deriving DecidableEq, Repr, Inhabited

/-- JavaScript `<` on numbers (no NaN in the model). -/
def jltb : JNum → JNum → Bool
  | JNum.negInf, JNum.negInf => false
  | JNum.negInf, _ => true
  | JNum.fin _, JNum.negInf => false
  | JNum.fin a, JNum.fin b => a < b
  | JNum.fin _, JNum.posInf => true
  | JNum.posInf, _ => false

/-- The JS zero literal the weight passes compare against. -/
def jzero : JNum := JNum.fin 0

/-- Primitive JavaScript values (elements of `depends` arrays). An `obj`
carries a reference tag; distinct tags are distinct objects. -/
inductive JSPrim : Type where
  | undef : JSPrim
  | null : JSPrim
  | num : JNum → JSPrim
  | str : String → JSPrim
  | bool : Bool → JSPrim
  | obj : Nat → JSPrim
deriving DecidableEq, Repr, Inhabited

/-- JavaScript field values: a primitive or a (flat) array of primitives. -/
inductive JSVal : Type where
  | prim : JSPrim → JSVal
  | arr : List JSPrim → JSVal
deriving DecidableEq, Repr

instance : Inhabited JSVal := ⟨JSVal.prim JSPrim.undef⟩

/-- JavaScript strict equality `===` on the modelled values.  Primitives
compare structurally (objects by reference tag); two arrays are never `===`
(array literals are distinct references). -/
def jsEq : JSVal → JSVal → Bool
  | JSVal.prim a, JSVal.prim b => a = b
  | _, _ => false

/-- JavaScript truthiness of the modelled values. -/
def truthy : JSVal → Bool
  | JSVal.prim JSPrim.undef => false
  | JSVal.prim JSPrim.null => false
  | JSVal.prim (JSPrim.num w) => w ≠ jzero
  | JSVal.prim (JSPrim.str s) => s ≠ ""
  | JSVal.prim (JSPrim.bool b) => b
  | JSVal.prim (JSPrim.obj _) => true
  | JSVal.arr _ => true

/-- An input record: a property map plus a reference tag giving the record
its JavaScript object identity (used by the id fallback `: node`). -/
structure Record : Type where
  fields : List (String × JSVal)
  ref : Nat
deriving DecidableEq, Repr

instance : Inhabited Record := ⟨⟨[], 0⟩⟩

/-- Property access `record[key]`: `undefined` when absent. -/
def getField (r : Record) (k : String) : JSVal :=
  (r.fields.lookup k).getD (JSVal.prim JSPrim.undef)

/-- The serialized node shape produced by `Serializer.serialize`:
`{ id, weight, depends, node }`.  The transient `mark` field is modelled as
explicit traversal state in `sortByDepends` (see `Mark`). -/
structure Node (α : Type) (ρ : Type) : Type where
  id : α
  weight : JNum
  depends : List α
  node : ρ
deriving DecidableEq, Repr

instance [Inhabited α] [Inhabited ρ] : Inhabited (Node α ρ) :=
  ⟨⟨default, default, default, default⟩⟩

/-- The resolved serializer configuration: property names for id, weight and
depends, and the default weight (the source resolves its `options` argument
to exactly these four values, with defaults `"id"`, `"weight"`, `"depends"`,
`0`). -/
structure SConfig : Type where
  idProperty : String
  weightProperty : String
  dependsProperty : String
  defaultWeight : JNum
deriving DecidableEq, Repr

/-- The configuration produced from an absent `options` argument. -/
def defaultConfig : SConfig := ⟨"id", "weight", "depends", jzero⟩

/-- `Serializer.serialize`: wrap a record into a node, guaranteeing the
existence and type of the expected properties.  Mirrors the source:
`id` falls back to the record itself (its object reference) when the id
field is `undefined` or `null` (`typeof id !== 'undefined' && id != null`);
`weight` falls back to the configured default unless the field holds a
number; `depends` is kept when truthy and an array, wrapped into a
one-element array when a truthy non-array, and `[]` otherwise. -/
def serialize (cfg : SConfig) (r : Record) : Node JSVal Record :=
  let id := getField r cfg.idProperty
  let weight := getField r cfg.weightProperty
  let dep := getField r cfg.dependsProperty
  { id := if id = JSVal.prim JSPrim.undef ∨ id = JSVal.prim JSPrim.null then
        JSVal.prim (JSPrim.obj r.ref)
      else id
    weight := match weight with
      | JSVal.prim (JSPrim.num w) => w
      | _ => cfg.defaultWeight
    depends :=
      if truthy dep then
        match dep with
        | JSVal.arr l => l.map JSVal.prim
        | v => [v]
      else []
    node := r }

/-- `Serializer.deserialize`: unwrap the original record. -/
def deserialize (n : Node α ρ) : ρ := n.node

/-- `~arr.indexOf(x)` membership test, element-by-element with the given
equality (the source compares with `===`). -/
def memBy (eqf : α → α → Bool) (l : List α) (x : α) : Bool :=
  l.any (fun d => eqf d x)

/-! ## Topological sort (`sortByDepends`) -/

/-- The traversal mark: `undefined` / `TEMPORARY_MARK` / `PERMANENT_MARK`. -/
inductive Mark : Type where
  | unvisited : Mark
  | temp : Mark
  | perm : Mark
deriving DecidableEq, Repr, Inhabited

/-- Errors of the embedded pipeline: the cycle error the traversal throws
(carrying `node.id`); the `TypeError` the weight passes throw when
`runInRange` visits an out-of-range index and the callback reads
`node.weight` of `undefined` (inputs of length 0 and 1); plus the
fuel-exhaustion artifact of embedding the unbounded JS recursion, proved
unreachable for the supplied fuel. -/
inductive Err (α : Type) : Type where
  | cycle : α → Err α
  | typeError : Err α
  | fuel : Err α
deriving DecidableEq, Repr

/-- Traversal state of `sortByDepends`: the per-node marks (parallel to the
input node list; the source stores them on the node objects) and the result
array built by `unshift` (head = most recently prepended = earliest in the
final order), holding positions into the input node list (the source holds
the node objects themselves; positions are their identities). -/
structure DState (n : Nat) : Type where
  marks : List Mark
  result : List (Fin n)
deriving DecidableEq, Repr

/-- The mark of node `i` (`undefined`, i.e. unvisited, when out of range). -/
def markOf (st : DState n) (i : Fin n) : Mark :=
  st.marks.getD i.val Mark.unvisited

section Topo

variable {α ρ : Type} (eqf : α → α → Bool) (nodes : List (Node α ρ))

/-- The inner `nodes.forEach` of `visit`: visit (via `f`, the recursive call
one fuel level down) every node whose `depends` contains `tid` (`node.id`),
in input order. -/
def visitDeps (f : Fin nodes.length → DState nodes.length →
    Except (Err α) (DState nodes.length)) (tid : α) :
    List (Fin nodes.length) → DState nodes.length →
      Except (Err α) (DState nodes.length)
  | [], st => Except.ok st
  | j :: js, st =>
    if memBy eqf (nodes.get j).depends tid then
      match f j st with
      | Except.error e => Except.error e
      | Except.ok st2 => visitDeps f tid js st2
    else visitDeps f tid js st

/-- `visit(node)`: throw on a temporary mark (cycle), skip on a permanent
mark, otherwise mark temporary, visit all dependents, mark permanent and
prepend to the result. -/
def visit : Nat → Fin nodes.length → DState nodes.length →
    Except (Err α) (DState nodes.length)
  | 0, _, _ => Except.error Err.fuel
  | fuel + 1, i, st =>
    match markOf st i with
    | Mark.temp => Except.error (Err.cycle (nodes.get i).id)
    | Mark.perm => Except.ok st
    | Mark.unvisited =>
      let st1 : DState nodes.length := ⟨st.marks.set i.val Mark.temp, st.result⟩
      match visitDeps eqf nodes (visit fuel) (nodes.get i).id
          (List.finRange nodes.length) st1 with
      | Except.error e => Except.error e
      | Except.ok st2 =>
        Except.ok ⟨st2.marks.set i.val Mark.perm, i :: st2.result⟩

/-- The outer `nodes.forEach`: visit every node not yet marked.  Each visit
gets fuel `nodes.length + 1`, which `visit_ne_fuel` below shows is enough
for the recursion depth the marks allow. -/
def topLoop : List (Fin nodes.length) → DState nodes.length →
    Except (Err α) (DState nodes.length)
  | [], st => Except.ok st
  | j :: js, st =>
    if markOf st j = Mark.unvisited then
      match visit eqf nodes (nodes.length + 1) j st with
      | Except.error e => Except.error e
      | Except.ok st2 => topLoop js st2
    else topLoop js st

/-- `sortByDepends` run from the given initial marks (the marks live on the
caller's node objects in the source; passing them in models calling the
utility on nodes in an arbitrary mark state).  Returns the new result array
together with the final marks. -/
def sortByDependsFrom (marks0 : List Mark) :
    Except (Err α) (List (Node α ρ) × List Mark) :=
  match topLoop eqf nodes (List.finRange nodes.length) ⟨marks0, []⟩ with
  | Except.error e => Except.error e
  | Except.ok st => Except.ok (st.result.map nodes.get, st.marks)

/-- The exported `sortByDepends` utility applied to freshly serialized nodes
(every mark `undefined`). -/
def sortByDepends : Except (Err α) (List (Node α ρ) × List Mark) :=
  sortByDependsFrom eqf nodes (List.replicate nodes.length Mark.unvisited)

end Topo

/-! ## Weight sort (`sortByWeight`) -/

section Swap

variable {β : Type} [Inhabited β]

/-- `arr[i]` (`default` out of range; in-range at every evaluated call). -/
def getE (arr : List β) (i : Nat) : β := arr.getD i default

/-- The adjacent-element swap `arr[n] = a; arr[i] = b` of `swapInRange`. -/
def listSwap (arr : List β) (i n : Nat) : List β :=
  (arr.set n (getE arr i)).set i (getE arr n)

/-- `swapInRange` stepping upward (`step = 1`), with `c` the remaining
distance `to - i`: swap the element at `i` with its successor while
`compare` holds, returning the final position (the source's single loop
body, specialised to the upward direction). -/
def swapUpAux (cmp : β → β → Bool) : List β → Nat → Nat → List β × Nat
  | arr, i, 0 => (arr, i)
  | arr, i, c + 1 =>
    let a := getE arr i
    let b := getE arr (i + 1)
    if cmp a b then
      let arr2 := listSwap arr i (i + 1)
      if c = 0 then (arr2, i + 1) else swapUpAux cmp arr2 (i + 1) c
    else (arr, i)

/-- `swapInRange` stepping downward (`step = -1`), with `c` the remaining
distance `i - to`. -/
def swapDownAux (cmp : β → β → Bool) : List β → Nat → Nat → List β × Nat
  | arr, i, 0 => (arr, i)
  | arr, i, c + 1 =>
    let a := getE arr i
    let b := getE arr (i - 1)
    if cmp a b then
      let arr2 := listSwap arr i (i - 1)
      if c = 0 then (arr2, i - 1) else swapDownAux cmp arr2 (i - 1) c
    else (arr, i)

/-- `swapInRange(arr, from, to, compare)`: swap the element at `from` one
position at a time toward `to` (inclusive) while `compare` holds, returning
the array and the final stop index.  When `from === to` the source returns
`undefined`; both call sites discard the index in that case, so returning
`from` is equivalent. -/
def swapInRange (arr : List β) (i t : Nat) (cmp : β → β → Bool) :
    List β × Nat :=
  if i = t then (arr, i)
  else if i < t then swapUpAux cmp arr i (t - i)
  else swapDownAux cmp arr i (i - t)

end Swap

/-- The indices `runInRange(arr, from, to, fn)` visits: `from` inclusive
toward `to` exclusive, stepping by `from < to ? 1 : -1`.  The step always
points toward `to`, so exactly `|to - from|` indices are visited (none when
`from === to`).  The indices are integers and may be out of the array's
range: the source then hands `arr[i] = undefined` to the callback. -/
def runIdxs (f t : Int) : List Int :=
  if f ≤ t then (List.range (t - f).toNat).map (fun (k : Nat) => f + (k : Int))
  else (List.range (f - t).toNat).map (fun (k : Nat) => f - (k : Int))

/-- The in-range indices of the negative-weight pass
`runInRange(result, 1, result.length, ...)`: `[1, ..., length-1]`.  For
`length = 0` the source's loop also visits the out-of-range index 1 and
throws `TypeError` there — see `runIdxs` / `negPassE`. -/
def negIdxs (len : Nat) : List Nat := List.range' 1 (len - 1)

/-- The in-range indices of the positive-weight pass
`runInRange(result, result.length - 2, 0, ...)`: `[length-2, ..., 1]`
(`to = 0` exclusive, stepping backward).  For `length < 2` the source's
loop instead visits the out-of-range indices `-2` / `-1` and throws
`TypeError` there — see `runIdxs` / `posPassE`. -/
def posIdxs (len : Nat) : List Nat := (List.range' 1 (len - 2)).reverse

section WeightSort

variable {α ρ : Type} [Inhabited α] [Inhabited ρ] (eqf : α → α → Bool)

/-- Negative pass downward guard: keep swapping toward the front while the
next element is not a dependency of the moving node
(`!~node.depends.indexOf(next.id)`). -/
def negGuard (node next : Node α ρ) : Bool := !(memBy eqf node.depends next.id)

/-- Negative pass upward guard: `node.weight > next.weight`. -/
def negWGuard (node next : Node α ρ) : Bool := jltb next.weight node.weight

/-- Positive pass upward guard: keep swapping toward the back while the next
element does not depend on the moving node
(`!~next.depends.indexOf(node.id)`). -/
def posGuard (node next : Node α ρ) : Bool := !(memBy eqf next.depends node.id)

/-- Positive pass downward guard: `node.weight < next.weight`. -/
def posWGuard (node next : Node α ρ) : Bool := jltb node.weight next.weight

/-- One iteration of the negative-weight pass at index `i`: if the node
weighs less than zero, swap it down until a dependency (or index 0), then
back up to the end of equal weight. -/
def negStep (arr : List (Node α ρ)) (i : Nat) : List (Node α ρ) :=
  let nd := getE arr i
  if jltb nd.weight jzero then
    let s1 := swapInRange arr i 0 (negGuard eqf)
    (swapInRange s1.1 s1.2 i (negWGuard : Node α ρ → Node α ρ → Bool)).1
  else arr

/-- One iteration of the positive-weight pass at index `i`: if the node
weighs more than zero, swap it up until a dependent (or the last index),
then back down to the end of equal weight. -/
def posStep (arr : List (Node α ρ)) (i : Nat) : List (Node α ρ) :=
  let nd := getE arr i
  if jltb jzero nd.weight then
    let s1 := swapInRange arr i (arr.length - 1) (posGuard eqf)
    (swapInRange s1.1 s1.2 i (posWGuard : Node α ρ → Node α ρ → Bool)).1
  else arr

/-- The negative-weight pass over its in-range indices (all the visited
indices when `1 ≤ length`; the faithful pass is `negPassE`). -/
def negPass (arr : List (Node α ρ)) : List (Node α ρ) :=
  (negIdxs arr.length).foldl (negStep eqf) arr

/-- The positive-weight pass over its in-range indices (all the visited
indices when `2 ≤ length`; the faithful pass is `posPassE`). -/
def posPass (arr : List (Node α ρ)) : List (Node α ρ) :=
  (posIdxs arr.length).foldl (posStep eqf) arr

/-- A weight pass: run the callback at every index `runInRange` visits, in
order.  At an out-of-range index the source's callback receives
`undefined` and its first property read (`node.weight`) throws
`TypeError`; at an in-range index the callback is total — one `step`. -/
def runPass (stepf : List (Node α ρ) → Nat → List (Node α ρ)) :
    List Int → List (Node α ρ) → Except (Err α) (List (Node α ρ))
  | [], arr => Except.ok arr
  | i :: is, arr =>
    if 0 ≤ i ∧ i < (arr.length : Int) then runPass stepf is (stepf arr i.toNat)
    else Except.error Err.typeError

/-- The negative-weight pass as the source runs it:
`runInRange(result, 1, result.length, ...)`. -/
def negPassE (arr : List (Node α ρ)) : Except (Err α) (List (Node α ρ)) :=
  runPass (negStep eqf) (runIdxs 1 (arr.length : Int)) arr

/-- The positive-weight pass as the source runs it:
`runInRange(result, result.length - 2, 0, ...)`. -/
def posPassE (arr : List (Node α ρ)) : Except (Err α) (List (Node α ρ)) :=
  runPass (posStep eqf) (runIdxs ((arr.length : Int) - 2) 0) arr

/-- `sortByWeight`: sort by weight in place, stopping at dependency
boundaries; the negative pass, then the positive pass.  A `TypeError`
thrown by an out-of-range scan (arrays of length 0 and 1) propagates. -/
def sortByWeight (arr : List (Node α ρ)) : Except (Err α) (List (Node α ρ)) :=
  match negPassE eqf arr with
  | Except.error e => Except.error e
  | Except.ok mid => posPassE eqf mid

/-- The value `sortByWeight` computes whenever it does not throw (length
at least 2, see `sortByWeight_eq`): both passes over their in-range
indices. -/
def sortByWeightOk (arr : List (Node α ρ)) : List (Node α ρ) :=
  posPass eqf (negPass eqf arr)

end WeightSort

/-! ## The public `sort` pipeline -/

/-- `sort(nodes)`: serialize, sort by dependency, sort by weight,
deserialize.  A new sequence is returned; the input list is unchanged.
An error of either phase (cycle, or the weight phase's `TypeError`)
propagates to the caller. -/
def sortR (cfg : SConfig) (records : List Record) :
    Except (Err JSVal) (List Record) :=
  let nodes := records.map (serialize cfg)
  match sortByDependsFrom jsEq nodes
      (List.replicate nodes.length Mark.unvisited) with
  | Except.error e => Except.error e
  | Except.ok (tsorted, _) =>
    match sortByWeight jsEq tsorted with
    | Except.error e => Except.error e
    | Except.ok weighted => Except.ok (weighted.map deserialize)

end DepSorter

deriving instance DecidableEq for Except

namespace DepSorter

/-! ## Concrete material used by the end-to-end scenario and the
counterexamples -/

/-- Shorthand: a string value. -/
def S (s : String) : JSVal := JSVal.prim (JSPrim.str s)

/-- Shorthand: an integer number value. -/
def W (z : Int) : JSVal := JSVal.prim (JSPrim.num (JNum.fin z))

/-- Shorthand: an array of strings. -/
def A (l : List String) : JSVal := JSVal.arr (l.map JSPrim.str)

/-- String equality as the id comparison for plain string-keyed nodes. -/
def strEq (a b : String) : Bool := a == b

/-- The configuration of the documented queue example:
`new DependencySorter({ idProperty: "name" })`. -/
def nameCfg : SConfig := ⟨"name", "weight", "depends", jzero⟩

def rJim : Record := ⟨[("name", S "Jim")], 0⟩
def rDonna : Record := ⟨[("name", S "Donna"), ("weight", W (-100))], 1⟩
def rBillie : Record := ⟨[("name", S "Billie"), ("weight", W (-5))], 2⟩
def rChris : Record :=
  ⟨[("name", S "Chris"), ("weight", JSVal.prim (JSPrim.num JNum.posInf))], 3⟩
def rJerk : Record :=
  ⟨[("name", S "Jerk"), ("weight", W 100), ("depends", A ["Chris"])], 4⟩
def rSherry : Record :=
  ⟨[("name", S "Sherry"), ("weight", JSVal.prim (JSPrim.num JNum.negInf)),
    ("depends", S "Donna")], 5⟩
def rDillon : Record := ⟨[("name", S "Dillon"), ("weight", W 10)], 6⟩
def rTom : Record :=
  ⟨[("name", S "Tom"), ("weight", W (-10)),
    ("depends", A ["Donna", "Sherry"])], 7⟩

/-- The eight records of the documented queue example, in input order. -/
def people : List Record :=
  [rJim, rDonna, rBillie, rChris, rJerk, rSherry, rDillon, rTom]

/-- Three dependency-free records with weights `0`, `0`, `1`. -/
def recA : Record := ⟨[("id", S "a"), ("weight", W 0)], 0⟩
def recB : Record := ⟨[("id", S "b"), ("weight", W 0)], 1⟩
def recC : Record := ⟨[("id", S "c"), ("weight", W 1)], 2⟩

/-- Two records forming a circular dependency chain `a ↔ b`. -/
def recCycA : Record := ⟨[("id", S "a"), ("depends", S "b")], 0⟩
def recCycB : Record := ⟨[("id", S "b"), ("depends", S "a")], 1⟩

/-- Two records where the second depends on the first (acyclic). -/
def recX : Record := ⟨[("id", S "x")], 0⟩
def recY : Record := ⟨[("id", S "y"), ("depends", S "x")], 1⟩

/-- Two independent string-keyed nodes (no dependency in either direction). -/
def nIndA : Node String Unit := ⟨"a", jzero, [], ()⟩
def nIndB : Node String Unit := ⟨"b", jzero, [], ()⟩

/-- A weight-0 node and a weight-(-1) node for the boundary counterexample. -/
def nW0 : Node String Unit := ⟨"x", JNum.fin 0, [], ()⟩
def nWneg : Node String Unit := ⟨"y", JNum.fin (-1), [], ()⟩

/-! ## Specification-side predicates -/

/-- Numeric rank of a mark: marks only ever advance
`unvisited → temp → perm` during traversal. -/
def mrank : Mark → Nat
  | Mark.unvisited => 0
  | Mark.temp => 1
  | Mark.perm => 2

/-- The direct dependency relation on input positions: `Rel a b` holds when
the node at position `b` depends on the node at position `a` (that is, `b`'s
`depends` contains `a`'s id), so `a` must precede `b`. -/
def Rel (eqf : α → α → Bool) (nodes : List (Node α ρ))
    (a b : Fin nodes.length) : Prop :=
  memBy eqf (nodes.get b).depends (nodes.get a).id = true

instance (eqf : α → α → Bool) (nodes : List (Node α ρ))
    (a b : Fin nodes.length) : Decidable (Rel eqf nodes a b) := by
  unfold Rel; infer_instance

/-- A circular dependency chain among the input nodes. -/
def HasCycle (eqf : α → α → Bool) (nodes : List (Node α ρ)) : Prop :=
  ∃ m, Relation.TransGen (Rel eqf nodes) m m

/-- No node is marked in-progress. -/
def NoTemps (nodes : List (Node α ρ)) (st : DState nodes.length) : Prop :=
  ∀ j : Fin nodes.length, markOf st j ≠ Mark.temp

/-- The invariant of the topological traversal state: marks parallel the
node list; a node is permanently marked exactly when it is in the result;
the result is duplicate-free; no element of the result depends on a later
element of the result nor on itself; and every dependent of a permanently
marked node is permanently marked. -/
def TopoInv (eqf : α → α → Bool) (nodes : List (Node α ρ))
    (st : DState nodes.length) : Prop :=
  st.marks.length = nodes.length ∧
  (∀ j : Fin nodes.length, markOf st j = Mark.perm ↔ j ∈ st.result) ∧
  st.result.Nodup ∧
  st.result.Pairwise (fun p q => ¬ Rel eqf nodes q p) ∧
  (∀ p ∈ st.result, ¬ Rel eqf nodes p p) ∧
  (∀ p : Fin nodes.length, markOf st p = Mark.perm →
    ∀ q : Fin nodes.length, Rel eqf nodes p q → markOf st q = Mark.perm)

/-- Number of unvisited marks: the measure showing the fuel
`nodes.length + 1` suffices for the traversal recursion. -/
def unvCount (mks : List Mark) : Nat :=
  mks.countP (fun m => decide (m = Mark.unvisited))

/-- `x` directly depends on `y` (`y.id` is in `x.depends`). -/
def dependsOnB (eqf : α → α → Bool) (x y : Node α ρ) : Bool :=
  memBy eqf x.depends y.id

/-- A node sequence is topologically valid: no element depends on a later
element. -/
def ValidO (eqf : α → α → Bool) (arr : List (Node α ρ)) : Prop :=
  arr.Pairwise (fun x y => dependsOnB eqf x y = false)

/-- Non-strict weight order (JS `!(b < a)`; total on the NaN-free model). -/
def wle (a b : JNum) : Prop := jltb b a = false

section MoveInvDefs

variable {α ρ : Type} [Inhabited α] [Inhabited ρ] (eqf : α → α → Bool)

/-- The invariant carried while a negative-weight mover crawls: the array
keeps its length, is a permutation of the starting array, stays
topologically valid, the mover `mv` sits at the current position, and every
element now occupying positions `(p, i]` (the ones the mover has crossed)
does not depend on the mover. -/
def NegMoveInv (arr0 : List (Node α ρ)) (L i : Nat) (mv : Node α ρ)
    (arr : List (Node α ρ)) (p : Nat) : Prop :=
  arr.length = L ∧ p < L ∧ getE arr p = mv ∧ ValidO eqf arr ∧
  arr.Perm arr0 ∧
  (∀ k, p < k → k ≤ i → dependsOnB eqf (getE arr k) mv = false)

/-- The invariant carried while a positive-weight mover crawls: mirror
image — every element now occupying positions `[i, p)` is not depended on
by the mover. -/
def PosMoveInv (arr0 : List (Node α ρ)) (L i : Nat) (mv : Node α ρ)
    (arr : List (Node α ρ)) (p : Nat) : Prop :=
  arr.length = L ∧ p < L ∧ getE arr p = mv ∧ ValidO eqf arr ∧
  arr.Perm arr0 ∧
  (∀ k, i ≤ k → k < p → dependsOnB eqf mv (getE arr k) = false)

end MoveInvDefs

section InsertDefs

variable {α ρ : Type}

/-- Is the node's weight strictly negative? -/
def negWB (x : Node α ρ) : Bool := jltb x.weight jzero

/-- Is the node's weight strictly positive? -/
def posWB (x : Node α ρ) : Bool := jltb jzero x.weight

/-- Non-decreasing weight order on nodes. -/
def wleW (a b : Node α ρ) : Prop := jltb b.weight a.weight = false

/-- Front insertion by weight: the net effect of a negative mover's
crawl-to-front followed by its bounded bubble back up (`mv` ends up before
the first element whose weight is not below its own). -/
def insertW (mv : Node α ρ) : List (Node α ρ) → List (Node α ρ)
  | [] => [mv]
  | b :: bs =>
    if jltb b.weight mv.weight then b :: insertW mv bs else mv :: b :: bs

/-- Mirror insertion on a reversed suffix, used to phrase back insertion. -/
def insertRev (mv : Node α ρ) : List (Node α ρ) → List (Node α ρ)
  | [] => [mv]
  | b :: bs =>
    if jltb mv.weight b.weight then b :: insertRev mv bs else mv :: b :: bs

/-- Back insertion by weight: the net effect of a positive mover's
crawl-to-back followed by its bounded bubble back down. -/
def insertB (mv : Node α ρ) (l : List (Node α ρ)) : List (Node α ρ) :=
  (insertRev mv l.reverse).reverse

end InsertDefs

/-- Refinement target for the Normalizer, following the spec's words
(§4.1): use the record's id-field value if present and non-null, else fall
back to the record itself (its object identity) as id; use the record's
weight-field value if it is numeric, else the configured default; use the
record's depends-field value as-is when it is a list, wrapped into a
one-element list if a truthy scalar, or empty if absent/falsy. -/
def normalizeSpec (cfg : SConfig) (r : Record) : Node JSVal Record :=
  let idv := getField r cfg.idProperty
  let wv := getField r cfg.weightProperty
  let dv := getField r cfg.dependsProperty
  { id := if idv ≠ JSVal.prim JSPrim.undef ∧ idv ≠ JSVal.prim JSPrim.null
      then idv else JSVal.prim (JSPrim.obj r.ref)
    weight := match wv with
      | JSVal.prim (JSPrim.num w) => w
      | _ => cfg.defaultWeight
    depends := match dv with
      | JSVal.arr l => l.map JSVal.prim
      | v => if truthy v then [v] else []
    node := r }

/-! ## C3: the end-to-end scenario -/

set_option maxRecDepth 4000 in
/-- C3: sorting the eight-record scenario Jim(0), Donna(-100), Billie(-5),
Chris(+Inf), Jerk(100, depends Chris), Sherry(-Inf, depends Donna),
Dillon(10), Tom(-10, depends Donna and Sherry), given in that input order,
returns exactly Donna, Sherry, Tom, Billie, Jim, Dillon, Chris, Jerk. -/
theorem sortR_people_scenario : sortR nameCfg people =
    Except.ok [rDonna, rSherry, rTom, rBillie, rJim, rDillon, rChris, rJerk] := by
  decide

/-! ## C8: the Normalizer contract -/

/-- C8: for every record and every configuration, `serialize` succeeds (it
is total by construction — no input shape raises) and produces exactly the
node the spec describes: id from the id field when present and non-null,
else the record itself; weight from the weight field when numeric, else the
configured default; depends taken as-is for a list, wrapped for a truthy
scalar, and empty for an absent/falsy field. -/
theorem serialize_meets_spec :
    ∀ (cfg : SConfig) (r : Record), serialize cfg r = normalizeSpec cfg r := by
  intro cfg r
  unfold serialize normalizeSpec
  refine congrArg₂ (fun a c => Node.mk a _ c r) ?_ ?_
  · by_cases h : getField r cfg.idProperty = JSVal.prim JSPrim.undef ∨
        getField r cfg.idProperty = JSVal.prim JSPrim.null
    · simp only [if_pos h]
      rw [if_neg]
      intro ⟨h1, h2⟩
      rcases h with h | h <;> [exact h1 h; exact h2 h]
    · simp only [if_neg h]
      rw [if_pos]
      push_neg at h
      exact h
  · cases hdv : getField r cfg.dependsProperty with
    | arr l => rfl
    | prim p => rfl

/-! ## C9: the mover index ranges of the two weight passes -/

/-- C9 counterexample: the claim says boundary elements at the very front
and very back are never initiators of a swap in either pass.  But the
negative-weight pass scans indices `1 .. length-1` inclusive, so the
element at the very back is a mover: on `[nW0, nWneg]` (no dependencies,
weights `0` and `-1`) the back element `nWneg` is scanned (index
`1 ∈ negIdxs 2`), initiates a swap, and arrives at the front. -/
theorem weight_pass_boundary_cex :
    negPass strEq [nW0, nWneg] = [nWneg, nW0] ∧
    1 ∈ negIdxs 2 ∧ jltb nWneg.weight jzero = true ∧ nWneg ≠ nW0 := by
  decide

/-- C9 amended: the negative pass considers as movers exactly the indices
`1 .. length-1` and the positive pass exactly the indices `length-2` down
to `1`; hence the front element (index 0) is never a swap initiator in
either pass and the back element is never an initiator in the positive
pass — but the back element is a mover candidate of the negative pass. -/
theorem weight_pass_boundary_amended :
    ∀ len : Nat,
      negIdxs len = List.range' 1 (len - 1) ∧
      posIdxs len = (List.range' 1 (len - 2)).reverse ∧
      0 ∉ negIdxs len ∧ 0 ∉ posIdxs len ∧ len - 1 ∉ posIdxs len ∧
      (2 ≤ len → len - 1 ∈ negIdxs len) := by
  intro len
  refine ⟨rfl, rfl, ?_, ?_, ?_, ?_⟩ <;>
    simp only [negIdxs, posIdxs, List.mem_reverse, List.mem_range'_1] <;>
    omega

/-- Witness for the hypothesis of `weight_pass_boundary_amended` at
`len = 2`. -/
theorem weight_pass_boundary_amended_witness :
    2 - 1 ∈ negIdxs 2 := (weight_pass_boundary_amended 2).2.2.2.2.2 (by decide)

/-! ## C7: determinism and (non-)idempotence of `sort` -/

/-- C7 counterexample: `sort` is not idempotent.  On the dependency-free
records `a(0), b(0), c(1)` the first sort returns `c, b, a` (the
topological phase reverses independent nodes and the stranded positive
weight stays in front), and sorting that output returns `a, b, c` — not
the same sequence. -/
theorem sortR_not_idempotent_cex :
    sortR defaultConfig [recA, recB, recC] = Except.ok [recC, recB, recA] ∧
    sortR defaultConfig [recC, recB, recA] = Except.ok [recA, recB, recC] ∧
    ([recC, recB, recA] : List Record) ≠ [recA, recB, recC] := by
  decide

/-- C7 amended: `sort` is deterministic — two runs on equal inputs return
equal outputs (the embedded pipeline is a pure function of the input
sequence and configuration).  The idempotence half of the claim is false,
see `sortR_not_idempotent_cex`. -/
theorem sortR_deterministic :
    ∀ (cfg : SConfig) (rs1 rs2 : List Record),
      rs1 = rs2 → sortR cfg rs1 = sortR cfg rs2 := by
  intro cfg rs1 rs2 h
  rw [h]

/-- Witness for `sortR_deterministic` at a concrete input. -/
theorem sortR_deterministic_witness :
    sortR defaultConfig [recA, recB, recC] =
      sortR defaultConfig [recA, recB, recC] :=
  sortR_deterministic defaultConfig [recA, recB, recC] [recA, recB, recC] rfl

/-! ## C4 counterexample -/

/-- C4 counterexample: on the dependency-free records `a(0), b(0), c(1)`
(no depends field matches any other node's id) `sort` returns `c, b, a`,
whose weights `1, 0, 0` are not in non-decreasing order: the weight of the
second output record is strictly below the weight of the first. -/
theorem sortR_weight_monotonicity_cex :
    sortR defaultConfig [recA, recB, recC] = Except.ok [recC, recB, recA] ∧
    (∀ p q : Fin 3, p ≠ q →
      memBy jsEq (serialize defaultConfig ([recA, recB, recC].get q)).depends
        (serialize defaultConfig ([recA, recB, recC].get p)).id = false) ∧
    jltb (serialize defaultConfig recB).weight
      (serialize defaultConfig recC).weight = true := by
  decide

/-! ## C5 counterexample -/

/-- C5 counterexample: the topological orderer does not keep independent
nodes in input relative order.  On two nodes `a`, `b` with no dependency
relationship in either direction, `sortByDepends` returns `[b, a]` — the
reverse of the input order. -/
theorem sortByDepends_stability_cex :
    sortByDepends strEq [nIndA, nIndB] =
      Except.ok ([nIndB, nIndA], [Mark.perm, Mark.perm]) ∧
    memBy strEq nIndA.depends nIndB.id = false ∧
    memBy strEq nIndB.depends nIndA.id = false ∧
    nIndA ≠ nIndB := by
  decide

/-! ## List and mark helper lemmas -/

theorem getD_set_self {γ : Type} (l : List γ) (i : Nat) (a d : γ)
    (h : i < l.length) : (l.set i a).getD i d = a := by
  simp [List.getD_eq_getElem?_getD, List.getElem?_set_self, h]

theorem getD_set_ne {γ : Type} (l : List γ) (i j : Nat) (a d : γ)
    (h : i ≠ j) : (l.set i a).getD j d = l.getD j d := by
  simp [List.getD_eq_getElem?_getD, List.getElem?_set_ne h]

theorem getD_eq_get {γ : Type} (l : List γ) (i : Nat) (d : γ)
    (h : i < l.length) : l.getD i d = l.get ⟨i, h⟩ := by
  simp [List.getD_eq_getElem?_getD, List.getElem?_eq_getElem h, List.get_eq_getElem]

theorem length_take_of_le {γ : Type} (arr : List γ) (k : Nat)
    (h : k ≤ arr.length) : (arr.take k).length = k := by
  simp only [List.length_take]
  omega

theorem countP_set_add {γ : Type} (p : γ → Bool) (l : List γ) (j : Nat)
    (b : γ) (h : j < l.length) :
    (l.set j b).countP p + (if p (l.get ⟨j, h⟩) then 1 else 0)
      = l.countP p + (if p b then 1 else 0) := by
  induction l generalizing j with
  | nil => simp at h
  | cons x xs ih =>
    cases j with
    | zero => simp [List.countP_cons]; omega
    | succ j =>
      have hj : j < xs.length := by simpa using h
      have := ih j hj
      simp only [List.set_cons_succ, List.countP_cons, List.get_cons_succ]
      omega

theorem perm_persists {m m' : Mark} (h : mrank m ≤ mrank m')
    (hm : m = Mark.perm) : m' = Mark.perm := by
  subst hm
  cases m' <;> simp [mrank] at h ⊢

theorem markOf_mk {n : Nat} (mks : List Mark) (res : List (Fin n))
    (j : Fin n) :
    markOf (⟨mks, res⟩ : DState n) j = mks.getD j.val Mark.unvisited := rfl

theorem unvCount_set_notunv (mks : List Mark) (i : Nat) (m : Mark)
    (hm : m ≠ Mark.unvisited) (h : i < mks.length) :
    unvCount (mks.set i m) ≤ unvCount mks := by
  have hc := countP_set_add (fun m => decide (m = Mark.unvisited)) mks i m h
  unfold unvCount
  have hmb : decide (m = Mark.unvisited) = false := by
    simp [hm]
  rw [hmb] at hc
  simp only [Bool.false_eq_true, if_false] at hc
  omega

theorem unvCount_set_temp_of_unv (mks : List Mark) (i : Nat)
    (hu : mks.getD i Mark.unvisited = Mark.unvisited) (h : i < mks.length) :
    unvCount (mks.set i Mark.temp) + 1 = unvCount mks := by
  have hc := countP_set_add (fun m => decide (m = Mark.unvisited)) mks i Mark.temp h
  unfold unvCount
  rw [getD_eq_get mks i Mark.unvisited h] at hu
  rw [hu] at hc
  simp at hc
  omega

theorem unvCount_pos_of_unv (mks : List Mark) (i : Nat)
    (hu : mks.getD i Mark.unvisited = Mark.unvisited) (h : i < mks.length) :
    0 < unvCount mks := by
  have hmem : mks.get ⟨i, h⟩ ∈ mks := List.get_mem mks i h
  rw [getD_eq_get mks i Mark.unvisited h] at hu
  refine List.countP_pos_iff.mpr ⟨mks.get ⟨i, h⟩, hmem, ?_⟩
  rw [List.get_eq_getElem] at hu
  simp [hu]

theorem unvCount_le_length (mks : List Mark) : unvCount mks ≤ mks.length :=
  List.countP_le_length _

/-! ## Invariant preservation lemmas for the topological traversal -/

section TopoLemmas

variable {α ρ : Type} (eqf : α → α → Bool) (nodes : List (Node α ρ))

theorem topoInv_set_temp (st : DState nodes.length) (i : Fin nodes.length)
    (hinv : TopoInv eqf nodes st) (hu : markOf st i = Mark.unvisited) :
    TopoInv eqf nodes ⟨st.marks.set i.val Mark.temp, st.result⟩ := by
  obtain ⟨hlen, hpr, hnd, hpw, hns, hcl⟩ := hinv
  have hilt : i.val < st.marks.length := by have := i.isLt; omega
  have hmof : ∀ j : Fin nodes.length,
      markOf (⟨st.marks.set i.val Mark.temp, st.result⟩ : DState nodes.length) j
        = if j = i then Mark.temp else markOf st j := by
    intro j
    by_cases hj : j = i
    · subst hj
      rw [if_pos rfl]
      show (st.marks.set j.val Mark.temp).getD j.val Mark.unvisited = Mark.temp
      exact getD_set_self _ _ _ _ hilt
    · rw [if_neg hj]
      show (st.marks.set i.val Mark.temp).getD j.val Mark.unvisited
          = st.marks.getD j.val Mark.unvisited
      exact getD_set_ne _ _ _ _ _ (fun hv => hj (Fin.ext hv.symm))
  refine ⟨by simpa using hlen, ?_, hnd, hpw, hns, ?_⟩
  · intro j
    rw [hmof j]
    by_cases hj : j = i
    · subst hj
      simp only [if_pos rfl]
      constructor
      · intro h; exact absurd h (by simp)
      · intro h
        exact absurd ((hpr _).mpr h) (by rw [hu]; simp)
    · simp only [if_neg hj]
      exact hpr j
  · intro p hp q hq
    rw [hmof p] at hp
    rw [hmof q]
    by_cases hpi : p = i
    · rw [if_pos hpi] at hp; exact absurd hp (by simp)
    · rw [if_neg hpi] at hp
      by_cases hqi : q = i
      · subst hqi
        have := hcl p hp q hq
        rw [hu] at this
        exact absurd this (by simp)
      · rw [if_neg hqi]
        exact hcl p hp q hq

theorem topoInv_prepend (st2 : DState nodes.length) (i : Fin nodes.length)
    (hinv : TopoInv eqf nodes st2) (htemp : markOf st2 i = Mark.temp)
    (hdeps : ∀ q : Fin nodes.length, Rel eqf nodes i q →
      markOf st2 q = Mark.perm) :
    TopoInv eqf nodes ⟨st2.marks.set i.val Mark.perm, i :: st2.result⟩ := by
  obtain ⟨hlen, hpr, hnd, hpw, hns, hcl⟩ := hinv
  have hilt : i.val < st2.marks.length := by have := i.isLt; omega
  have hnoti : i ∉ st2.result := by
    intro hmem
    have := (hpr i).mpr hmem
    rw [htemp] at this
    exact absurd this (by simp)
  have hnorel : ¬ Rel eqf nodes i i := by
    intro hr
    have := hdeps i hr
    rw [htemp] at this
    exact absurd this (by simp)
  have hmof : ∀ j : Fin nodes.length,
      markOf (⟨st2.marks.set i.val Mark.perm, i :: st2.result⟩ :
        DState nodes.length) j
        = if j = i then Mark.perm else markOf st2 j := by
    intro j
    by_cases hj : j = i
    · subst hj
      rw [if_pos rfl]
      show (st2.marks.set j.val Mark.perm).getD j.val Mark.unvisited = Mark.perm
      exact getD_set_self _ _ _ _ hilt
    · rw [if_neg hj]
      show (st2.marks.set i.val Mark.perm).getD j.val Mark.unvisited
          = st2.marks.getD j.val Mark.unvisited
      exact getD_set_ne _ _ _ _ _ (fun hv => hj (Fin.ext hv.symm))
  refine ⟨by simpa using hlen, ?_, ?_, ?_, ?_, ?_⟩
  · intro j
    rw [hmof j]
    by_cases hj : j = i
    · subst hj; simp
    · simp only [if_neg hj, List.mem_cons]
      rw [hpr j]
      constructor
      · intro h; exact Or.inr h
      · rintro (h | h)
        · exact absurd h hj
        · exact h
  · exact List.nodup_cons.mpr ⟨hnoti, hnd⟩
  · refine List.pairwise_cons.mpr ⟨?_, hpw⟩
    intro q hq
    intro hrel
    have hqperm := (hpr q).mpr hq
    have := hcl q hqperm i hrel
    rw [htemp] at this
    exact absurd this (by simp)
  · intro p hp
    rcases List.mem_cons.mp hp with h | h
    · subst h; exact hnorel
    · exact hns p h
  · intro p hp q hq
    rw [hmof p] at hp
    rw [hmof q]
    by_cases hqi : q = i
    · simp [hqi]
    · rw [if_neg hqi]
      by_cases hpi : p = i
      · subst hpi
        exact hdeps q hq
      · rw [if_neg hpi] at hp
        exact hcl p hp q hq

theorem visitDeps_ok_facts
    (f : Fin nodes.length → DState nodes.length →
      Except (Err α) (DState nodes.length)) (tid : α)
    (Hf : ∀ (j : Fin nodes.length) st st', f j st = Except.ok st' →
      TopoInv eqf nodes st →
      TopoInv eqf nodes st' ∧
      (∀ k, mrank (markOf st k) ≤ mrank (markOf st' k)) ∧
      (∀ k, markOf st' k = Mark.temp ↔ markOf st k = Mark.temp) ∧
      markOf st' j = Mark.perm ∧
      (∃ pre, st'.result = pre ++ st.result) ∧
      unvCount st'.marks ≤ unvCount st.marks) :
    ∀ (js : List (Fin nodes.length)) (st st' : DState nodes.length),
    visitDeps eqf nodes f tid js st = Except.ok st' → TopoInv eqf nodes st →
    TopoInv eqf nodes st' ∧
    (∀ k, mrank (markOf st k) ≤ mrank (markOf st' k)) ∧
    (∀ k, markOf st' k = Mark.temp ↔ markOf st k = Mark.temp) ∧
    (∀ j ∈ js, memBy eqf (nodes.get j).depends tid = true →
      markOf st' j = Mark.perm) ∧
    (∃ pre, st'.result = pre ++ st.result) ∧
    unvCount st'.marks ≤ unvCount st.marks := by
  intro js
  induction js with
  | nil =>
    intro st st' h hinv
    simp only [visitDeps] at h
    cases h
    exact ⟨hinv, fun k => le_refl _, fun k => Iff.rfl, by simp, ⟨[], rfl⟩,
      le_refl _⟩
  | cons j js ih =>
    intro st st' h hinv
    simp only [visitDeps] at h
    by_cases hc : memBy eqf (nodes.get j).depends tid = true
    · rw [if_pos hc] at h
      cases hf : f j st with
      | error e => rw [hf] at h; exact absurd h (by simp)
      | ok st1 =>
        rw [hf] at h
        obtain ⟨hinv1, hmono1, htemp1, hperm1, hpre1, hcnt1⟩ :=
          Hf j st st1 hf hinv
        obtain ⟨hinv2, hmono2, htemp2, hperm2, hpre2, hcnt2⟩ :=
          ih st1 st' h hinv1
        refine ⟨hinv2, fun k => le_trans (hmono1 k) (hmono2 k),
          fun k => Iff.trans (htemp2 k) (htemp1 k), ?_, ?_,
          le_trans hcnt2 hcnt1⟩
        · intro j' hj' hcond
          rcases List.mem_cons.mp hj' with hj' | hj'
          · subst hj'
            exact perm_persists (hmono2 j') hperm1
          · exact hperm2 j' hj' hcond
        · obtain ⟨p1, hp1⟩ := hpre1
          obtain ⟨p2, hp2⟩ := hpre2
          exact ⟨p2 ++ p1, by rw [hp2, hp1, List.append_assoc]⟩
    · rw [if_neg hc] at h
      obtain ⟨hinv2, hmono2, htemp2, hperm2, hpre2, hcnt2⟩ :=
        ih st st' h hinv
      refine ⟨hinv2, hmono2, htemp2, ?_, hpre2, hcnt2⟩
      intro j' hj' hcond
      rcases List.mem_cons.mp hj' with hj' | hj'
      · subst hj'; exact absurd hcond hc
      · exact hperm2 j' hj' hcond

theorem visit_ok_facts :
    ∀ (fuel : Nat) (i : Fin nodes.length) (st st' : DState nodes.length),
    visit eqf nodes fuel i st = Except.ok st' → TopoInv eqf nodes st →
    TopoInv eqf nodes st' ∧
    (∀ k, mrank (markOf st k) ≤ mrank (markOf st' k)) ∧
    (∀ k, markOf st' k = Mark.temp ↔ markOf st k = Mark.temp) ∧
    markOf st' i = Mark.perm ∧
    (∃ pre, st'.result = pre ++ st.result) ∧
    unvCount st'.marks ≤ unvCount st.marks := by
  intro fuel
  induction fuel with
  | zero =>
    intro i st st' h hinv
    simp only [visit] at h
    exact absurd h (by simp)
  | succ fuel ih =>
    intro i st st' h hinv
    simp only [visit] at h
    cases hm : markOf st i with
    | temp => rw [hm] at h; exact absurd h (by simp)
    | perm =>
      rw [hm] at h
      cases h
      exact ⟨hinv, fun k => le_refl _, fun k => Iff.rfl, hm, ⟨[], rfl⟩,
        le_refl _⟩
    | unvisited =>
      rw [hm] at h
      have hlen : st.marks.length = nodes.length := hinv.1
      have hilt : i.val < st.marks.length := by have := i.isLt; omega
      set st1 : DState nodes.length :=
        ⟨st.marks.set i.val Mark.temp, st.result⟩ with hst1
      have hinv1 : TopoInv eqf nodes st1 := topoInv_set_temp eqf nodes st i hinv hm
      have hm1 : markOf st1 i = Mark.temp := by
        show (st.marks.set i.val Mark.temp).getD i.val Mark.unvisited = Mark.temp
        exact getD_set_self _ _ _ _ hilt
      have hm1other : ∀ k : Fin nodes.length, k ≠ i → markOf st1 k = markOf st k := by
        intro k hk
        show (st.marks.set i.val Mark.temp).getD k.val Mark.unvisited
            = st.marks.getD k.val Mark.unvisited
        exact getD_set_ne _ _ _ _ _ (fun hv => hk (Fin.ext hv.symm))
      cases hd : visitDeps eqf nodes (visit eqf nodes fuel) (nodes.get i).id
          (List.finRange nodes.length) st1 with
      | error e => rw [hd] at h; exact absurd h (by simp)
      | ok st2 =>
        rw [hd] at h
        cases h
        obtain ⟨hinv2, hmono2, htemp2, hperm2, hpre2, hcnt2⟩ :=
          visitDeps_ok_facts eqf nodes (visit eqf nodes fuel)
            (nodes.get i).id ih (List.finRange nodes.length) st1 st2 hd hinv1
        have hm2 : markOf st2 i = Mark.temp := (htemp2 i).mpr hm1
        have hdeps : ∀ q : Fin nodes.length, Rel eqf nodes i q →
            markOf st2 q = Mark.perm := by
          intro q hq
          exact hperm2 q (List.mem_finRange q) hq
        have hfin : TopoInv eqf nodes
            ⟨st2.marks.set i.val Mark.perm, i :: st2.result⟩ :=
          topoInv_prepend eqf nodes st2 i hinv2 hm2 hdeps
        have hlen2 : st2.marks.length = nodes.length := hinv2.1
        have hilt2 : i.val < st2.marks.length := by have := i.isLt; omega
        have hmfin : markOf (⟨st2.marks.set i.val Mark.perm, i :: st2.result⟩ :
            DState nodes.length) i = Mark.perm := by
          show (st2.marks.set i.val Mark.perm).getD i.val Mark.unvisited = Mark.perm
          exact getD_set_self _ _ _ _ hilt2
        have hmfinother : ∀ k : Fin nodes.length, k ≠ i →
            markOf (⟨st2.marks.set i.val Mark.perm, i :: st2.result⟩ :
              DState nodes.length) k = markOf st2 k := by
          intro k hk
          show (st2.marks.set i.val Mark.perm).getD k.val Mark.unvisited
              = st2.marks.getD k.val Mark.unvisited
          exact getD_set_ne _ _ _ _ _ (fun hv => hk (Fin.ext hv.symm))
        refine ⟨hfin, ?_, ?_, hmfin, ?_, ?_⟩
        · intro k
          by_cases hk : k = i
          · subst hk
            rw [hmfin, hm]
            simp [mrank]
          · rw [hmfinother k hk]
            refine le_trans ?_ (hmono2 k)
            rw [hm1other k hk]
        · intro k
          by_cases hk : k = i
          · subst hk
            rw [hmfin, hm]
            simp
          · rw [hmfinother k hk, ← hm1other k hk]
            exact htemp2 k
        · obtain ⟨p2, hp2⟩ := hpre2
          exact ⟨i :: p2, by simp [hp2]⟩
        · have hstep : unvCount (st2.marks.set i.val Mark.perm)
              ≤ unvCount st2.marks :=
            unvCount_set_notunv _ _ _ (by simp) hilt2
          have hdrop : unvCount st1.marks + 1 = unvCount st.marks := by
            show unvCount (st.marks.set i.val Mark.temp) + 1 = unvCount st.marks
            exact unvCount_set_temp_of_unv _ _ hm hilt
          calc unvCount (st2.marks.set i.val Mark.perm)
              ≤ unvCount st2.marks := hstep
            _ ≤ unvCount st1.marks := hcnt2
            _ ≤ unvCount st.marks := by omega

theorem visit_ne_errfuel :
    ∀ (fuel : Nat) (i : Fin nodes.length) (st : DState nodes.length),
    TopoInv eqf nodes st → unvCount st.marks < fuel →
    visit eqf nodes fuel i st ≠ Except.error Err.fuel := by
  intro fuel
  induction fuel with
  | zero => intro i st _ hcnt; omega
  | succ fuel ih =>
    intro i st hinv hcnt
    simp only [visit]
    cases hm : markOf st i with
    | temp => simp
    | perm => simp
    | unvisited =>
      have hlen : st.marks.length = nodes.length := hinv.1
      have hilt : i.val < st.marks.length := by have := i.isLt; omega
      set st1 : DState nodes.length :=
        ⟨st.marks.set i.val Mark.temp, st.result⟩ with hst1
      have hinv1 : TopoInv eqf nodes st1 := topoInv_set_temp eqf nodes st i hinv hm
      have hcnt1 : unvCount st1.marks + 1 = unvCount st.marks :=
        unvCount_set_temp_of_unv _ _ hm hilt
      have hdeps_ne : ∀ (js : List (Fin nodes.length)) (st0 : DState nodes.length),
          TopoInv eqf nodes st0 → unvCount st0.marks < fuel →
          visitDeps eqf nodes (visit eqf nodes fuel) (nodes.get i).id js st0
            ≠ Except.error Err.fuel := by
        intro js
        induction js with
        | nil => intro st0 _ _; simp [visitDeps]
        | cons j js ihjs =>
          intro st0 hinv0 hcnt0
          simp only [visitDeps]
          by_cases hc : memBy eqf (nodes.get j).depends (nodes.get i).id = true
          · rw [if_pos hc]
            cases hf : visit eqf nodes fuel j st0 with
            | error e =>
              intro habs
              have : e = Err.fuel := by
                simpa using habs
              subst this
              exact ih j st0 hinv0 hcnt0 hf
            | ok stx =>
              obtain ⟨hinvx, _, _, _, _, hcntx⟩ :=
                visit_ok_facts eqf nodes fuel j st0 stx hf hinv0
              exact ihjs stx hinvx (by omega)
          · rw [if_neg hc]
            exact ihjs st0 hinv0 hcnt0
      cases hd : visitDeps eqf nodes (visit eqf nodes fuel) (nodes.get i).id
          (List.finRange nodes.length) st1 with
      | error e =>
        intro habs
        have : e = Err.fuel := by simpa using habs
        subst this
        exact hdeps_ne (List.finRange nodes.length) st1 hinv1 (by omega) hd
      | ok st2 => simp

theorem visitDeps_err_facts
    (f : Fin nodes.length → DState nodes.length →
      Except (Err α) (DState nodes.length)) (tid : α)
    (HfOk : ∀ (j : Fin nodes.length) st st', f j st = Except.ok st' →
      TopoInv eqf nodes st →
      TopoInv eqf nodes st' ∧
      (∀ k, mrank (markOf st k) ≤ mrank (markOf st' k)) ∧
      (∀ k, markOf st' k = Mark.temp ↔ markOf st k = Mark.temp) ∧
      markOf st' j = Mark.perm ∧
      (∃ pre, st'.result = pre ++ st.result) ∧
      unvCount st'.marks ≤ unvCount st.marks) :
    ∀ (js : List (Fin nodes.length)) (st : DState nodes.length) (e : Err α),
    visitDeps eqf nodes f tid js st = Except.error e → TopoInv eqf nodes st →
    ∃ j ∈ js, memBy eqf (nodes.get j).depends tid = true ∧
      ∃ stk, TopoInv eqf nodes stk ∧
        (∀ k, markOf stk k = Mark.temp ↔ markOf st k = Mark.temp) ∧
        f j stk = Except.error e := by
  intro js
  induction js with
  | nil =>
    intro st e h _
    simp [visitDeps] at h
  | cons j js ih =>
    intro st e h hinv
    simp only [visitDeps] at h
    by_cases hc : memBy eqf (nodes.get j).depends tid = true
    · rw [if_pos hc] at h
      cases hf : f j st with
      | error e2 =>
        rw [hf] at h
        have he : e2 = e := by simpa using h
        subst he
        exact ⟨j, List.mem_cons_self j js, hc,
          st, hinv, fun k => Iff.rfl, hf⟩
      | ok st1 =>
        rw [hf] at h
        obtain ⟨hinv1, _, htemp1, _, _, _⟩ := HfOk j st st1 hf hinv
        obtain ⟨j2, hj2, hc2, stk, hinvk, htempk, hfk⟩ := ih st1 e h hinv1
        exact ⟨j2, List.mem_cons_of_mem j hj2, hc2, stk, hinvk,
          fun k => Iff.trans (htempk k) (htemp1 k), hfk⟩
    · rw [if_neg hc] at h
      obtain ⟨j2, hj2, hc2, stk, hinvk, htempk, hfk⟩ := ih st e h hinv
      exact ⟨j2, List.mem_cons_of_mem j hj2, hc2, stk, hinvk, htempk, hfk⟩

theorem visit_err_facts :
    ∀ (fuel : Nat) (i : Fin nodes.length) (st : DState nodes.length) (e : Err α),
    visit eqf nodes fuel i st = Except.error e → TopoInv eqf nodes st →
    e = Err.fuel ∨
    (∃ m, markOf st m = Mark.temp ∧
      Relation.ReflTransGen (Rel eqf nodes) i m ∧
      e = Err.cycle (nodes.get m).id) ∨
    (∃ m, Relation.TransGen (Rel eqf nodes) m m ∧
      e = Err.cycle (nodes.get m).id) := by
  intro fuel
  induction fuel with
  | zero =>
    intro i st e h _
    simp only [visit] at h
    have : Err.fuel = e := by simpa using h
    exact Or.inl this.symm
  | succ fuel ih =>
    intro i st e h hinv
    simp only [visit] at h
    cases hm : markOf st i with
    | temp =>
      rw [hm] at h
      have he : (Err.cycle (nodes.get i).id : Err α) = e := by simpa using h
      exact Or.inr (Or.inl ⟨i, hm, Relation.ReflTransGen.refl, he.symm⟩)
    | perm => rw [hm] at h; exact absurd h (by simp)
    | unvisited =>
      rw [hm] at h
      have hlen : st.marks.length = nodes.length := hinv.1
      have hilt : i.val < st.marks.length := by have := i.isLt; omega
      set st1 : DState nodes.length :=
        ⟨st.marks.set i.val Mark.temp, st.result⟩ with hst1
      have hinv1 : TopoInv eqf nodes st1 := topoInv_set_temp eqf nodes st i hinv hm
      have hm1 : ∀ m : Fin nodes.length,
          markOf st1 m = Mark.temp ↔ (m = i ∨ markOf st m = Mark.temp) := by
        intro m
        by_cases hmi : m = i
        · subst hmi
          constructor
          · intro _; exact Or.inl rfl
          · intro _
            show (st.marks.set m.val Mark.temp).getD m.val Mark.unvisited = Mark.temp
            exact getD_set_self _ _ _ _ hilt
        · have hne : markOf st1 m = markOf st m := by
            show (st.marks.set i.val Mark.temp).getD m.val Mark.unvisited
                = st.marks.getD m.val Mark.unvisited
            exact getD_set_ne _ _ _ _ _ (fun hv => hmi (Fin.ext hv.symm))
          rw [hne]
          constructor
          · intro hx; exact Or.inr hx
          · rintro (hx | hx)
            · exact absurd hx hmi
            · exact hx
      cases hd : visitDeps eqf nodes (visit eqf nodes fuel) (nodes.get i).id
          (List.finRange nodes.length) st1 with
      | ok st2 => rw [hd] at h; exact absurd h (by simp)
      | error e2 =>
        rw [hd] at h
        have he : e2 = e := by simpa using h
        subst he
        obtain ⟨j, _, hc, stk, hinvk, htempk, hfk⟩ :=
          visitDeps_err_facts eqf nodes (visit eqf nodes fuel) (nodes.get i).id
            (fun j st st' hf hinv => visit_ok_facts eqf nodes fuel j st st' hf hinv)
            (List.finRange nodes.length) st1 e2 hd hinv1
        have hrel : Rel eqf nodes i j := hc
        rcases ih j stk e2 hfk hinvk with hfuel | ⟨m, hmt, hpath, hpid⟩ |
            ⟨m, hcyc, hmid⟩
        · exact Or.inl hfuel
        · have := (htempk m).mp hmt
          rcases (hm1 m).mp this with hmi | hmst
          · subst hmi
            exact Or.inr (Or.inr ⟨m, Relation.TransGen.head' hrel hpath, hpid⟩)
          · exact Or.inr (Or.inl ⟨m, hmst,
              Relation.ReflTransGen.head hrel hpath, hpid⟩)
        · exact Or.inr (Or.inr ⟨m, hcyc, hmid⟩)

theorem topLoop_ok_facts :
    ∀ (js : List (Fin nodes.length)) (st st' : DState nodes.length),
    topLoop eqf nodes js st = Except.ok st' → TopoInv eqf nodes st →
    NoTemps nodes st →
    TopoInv eqf nodes st' ∧ NoTemps nodes st' ∧
    (∀ k, mrank (markOf st k) ≤ mrank (markOf st' k)) ∧
    (∀ j ∈ js, markOf st' j = Mark.perm) ∧
    (∃ pre, st'.result = pre ++ st.result) := by
  intro js
  induction js with
  | nil =>
    intro st st' h hinv hnt
    simp only [topLoop] at h
    cases h
    exact ⟨hinv, hnt, fun k => le_refl _, by simp, ⟨[], rfl⟩⟩
  | cons j js ih =>
    intro st st' h hinv hnt
    simp only [topLoop] at h
    by_cases hu : markOf st j = Mark.unvisited
    · rw [if_pos hu] at h
      cases hv : visit eqf nodes (nodes.length + 1) j st with
      | error e => rw [hv] at h; exact absurd h (by simp)
      | ok st1 =>
        rw [hv] at h
        obtain ⟨hinv1, hmono1, htemp1, hperm1, hpre1, _⟩ :=
          visit_ok_facts eqf nodes (nodes.length + 1) j st st1 hv hinv
        have hnt1 : NoTemps nodes st1 := by
          intro k hk
          exact hnt k ((htemp1 k).mp hk)
        obtain ⟨hinv2, hnt2, hmono2, hperm2, hpre2⟩ := ih st1 st' h hinv1 hnt1
        refine ⟨hinv2, hnt2, fun k => le_trans (hmono1 k) (hmono2 k), ?_, ?_⟩
        · intro j' hj'
          rcases List.mem_cons.mp hj' with hj' | hj'
          · subst hj'
            exact perm_persists (hmono2 j') hperm1
          · exact hperm2 j' hj'
        · obtain ⟨p1, hp1⟩ := hpre1
          obtain ⟨p2, hp2⟩ := hpre2
          exact ⟨p2 ++ p1, by rw [hp2, hp1, List.append_assoc]⟩
    · rw [if_neg hu] at h
      obtain ⟨hinv2, hnt2, hmono2, hperm2, hpre2⟩ := ih st st' h hinv hnt
      refine ⟨hinv2, hnt2, hmono2, ?_, hpre2⟩
      intro j' hj'
      rcases List.mem_cons.mp hj' with hj' | hj'
      · subst hj'
        have hjp : markOf st j' = Mark.perm := by
          cases hmm : markOf st j' with
          | unvisited => exact absurd hmm hu
          | temp => exact absurd hmm (hnt j')
          | perm => rfl
        exact perm_persists (hmono2 j') hjp
      · exact hperm2 j' hj'

theorem topLoop_err_facts :
    ∀ (js : List (Fin nodes.length)) (st : DState nodes.length) (e : Err α),
    topLoop eqf nodes js st = Except.error e → TopoInv eqf nodes st →
    NoTemps nodes st →
    ∃ m, Relation.TransGen (Rel eqf nodes) m m ∧
      e = Err.cycle (nodes.get m).id := by
  intro js
  induction js with
  | nil =>
    intro st e h _ _
    simp [topLoop] at h
  | cons j js ih =>
    intro st e h hinv hnt
    simp only [topLoop] at h
    by_cases hu : markOf st j = Mark.unvisited
    · rw [if_pos hu] at h
      cases hv : visit eqf nodes (nodes.length + 1) j st with
      | error e2 =>
        rw [hv] at h
        have he : e2 = e := by simpa using h
        subst he
        rcases visit_err_facts eqf nodes (nodes.length + 1) j st e2 hv hinv with
            hfuel | ⟨m, hmt, _, _⟩ | ⟨m, hcyc, hmid⟩
        · subst hfuel
          exact absurd hv (visit_ne_errfuel eqf nodes (nodes.length + 1) j st
            hinv (by
              have h1 := unvCount_le_length st.marks
              have h2 : st.marks.length = nodes.length := hinv.1
              omega))
        · exact absurd hmt (hnt m)
        · exact ⟨m, hcyc, hmid⟩
      | ok st1 =>
        rw [hv] at h
        obtain ⟨hinv1, _, htemp1, _, _, _⟩ :=
          visit_ok_facts eqf nodes (nodes.length + 1) j st st1 hv hinv
        have hnt1 : NoTemps nodes st1 := by
          intro k hk
          exact hnt k ((htemp1 k).mp hk)
        exact ih st1 e h hinv1 hnt1
    · rw [if_neg hu] at h
      exact ih st e h hinv hnt

theorem topLoop_skip :
    ∀ (js : List (Fin nodes.length)) (st : DState nodes.length),
    (∀ j ∈ js, markOf st j ≠ Mark.unvisited) →
    topLoop eqf nodes js st = Except.ok st := by
  intro js
  induction js with
  | nil => intro st _; simp [topLoop]
  | cons j js ih =>
    intro st hns
    simp only [topLoop]
    rw [if_neg (hns j (List.mem_cons_self j js))]
    exact ih st (fun j' hj' => hns j' (List.mem_cons_of_mem j hj'))

theorem topoInv_initial :
    TopoInv eqf nodes
      ⟨List.replicate nodes.length Mark.unvisited, []⟩ := by
  have hmof : ∀ j : Fin nodes.length,
      markOf (⟨List.replicate nodes.length Mark.unvisited, []⟩ :
        DState nodes.length) j = Mark.unvisited := by
    intro j
    show (List.replicate nodes.length Mark.unvisited).getD j.val Mark.unvisited
        = Mark.unvisited
    have hj : j.val < (List.replicate nodes.length Mark.unvisited).length := by
      simp [j.isLt]
    rw [getD_eq_get _ _ _ hj]
    simp [List.get_eq_getElem, List.getElem_replicate]
  refine ⟨by simp, ?_, List.nodup_nil, List.Pairwise.nil, by simp, ?_⟩
  · intro j
    rw [hmof j]
    simp
  · intro p hp
    rw [hmof p] at hp
    exact absurd hp (by simp)

theorem noTemps_initial :
    NoTemps nodes ⟨List.replicate nodes.length Mark.unvisited, []⟩ := by
  intro j
  show (List.replicate nodes.length Mark.unvisited).getD j.val Mark.unvisited
      ≠ Mark.temp
  have hj : j.val < (List.replicate nodes.length Mark.unvisited).length := by
    simp [j.isLt]
  rw [getD_eq_get _ _ _ hj]
  simp [List.get_eq_getElem, List.getElem_replicate]

theorem visitDeps_no_matches
    (f : Fin nodes.length → DState nodes.length →
      Except (Err α) (DState nodes.length)) (tid : α) :
    ∀ (js : List (Fin nodes.length)) (st : DState nodes.length),
    (∀ j ∈ js, memBy eqf (nodes.get j).depends tid = false) →
    visitDeps eqf nodes f tid js st = Except.ok st := by
  intro js
  induction js with
  | nil => intro st _; simp [visitDeps]
  | cons j js ih =>
    intro st hc
    simp only [visitDeps]
    have hcj : memBy eqf (nodes.get j).depends tid = false :=
      hc j (List.mem_cons_self j js)
    rw [if_neg (by rw [hcj]; simp)]
    exact ih st (fun j' hj' => hc j' (List.mem_cons_of_mem j hj'))

theorem visit_indep (fuel : Nat) (i : Fin nodes.length)
    (st : DState nodes.length) (hu : markOf st i = Mark.unvisited)
    (_hlen : st.marks.length = nodes.length)
    (hnd : ∀ j : Fin nodes.length,
      memBy eqf (nodes.get j).depends (nodes.get i).id = false) :
    visit eqf nodes (fuel + 1) i st =
      Except.ok ⟨st.marks.set i.val Mark.perm, i :: st.result⟩ := by
  simp only [visit, hu]
  rw [visitDeps_no_matches eqf nodes (visit eqf nodes fuel) (nodes.get i).id
    (List.finRange nodes.length) _ (fun j _ => hnd j)]
  simp [List.set_set]

theorem topLoop_indep
    (hnd2 : ∀ i j : Fin nodes.length,
      memBy eqf (nodes.get j).depends (nodes.get i).id = false) :
    ∀ (js : List (Fin nodes.length)) (st : DState nodes.length),
    js.Nodup → (∀ j ∈ js, markOf st j = Mark.unvisited) →
    st.marks.length = nodes.length →
    topLoop eqf nodes js st = Except.ok
      ⟨js.foldl (fun mks j => mks.set j.val Mark.perm) st.marks,
        js.reverse ++ st.result⟩ := by
  intro js
  induction js with
  | nil =>
    intro st _ _ _
    simp [topLoop]
  | cons j js ih =>
    intro st hnd hu hlen
    simp only [topLoop]
    rw [if_pos (hu j (List.mem_cons_self j js))]
    have hv := visit_indep eqf nodes nodes.length j st
      (hu j (List.mem_cons_self j js)) hlen (fun j' => hnd2 j j')
    rw [hv]
    have hnd' := (List.nodup_cons.mp hnd).2
    have hjni := (List.nodup_cons.mp hnd).1
    have hu' : ∀ j' ∈ js, markOf
        (⟨st.marks.set j.val Mark.perm, j :: st.result⟩ :
          DState nodes.length) j' = Mark.unvisited := by
      intro j' hj'
      have hne : j' ≠ j := fun h => hjni (h ▸ hj')
      show (st.marks.set j.val Mark.perm).getD j'.val Mark.unvisited
          = Mark.unvisited
      rw [getD_set_ne _ _ _ _ _ (fun hv' => hne (Fin.ext hv'.symm))]
      exact hu j' (List.mem_cons_of_mem j hj')
    have hrest := ih ⟨st.marks.set j.val Mark.perm, j :: st.result⟩ hnd' hu'
      (by simpa using hlen)
    exact hrest.trans (by simp [List.reverse_cons, List.append_assoc])

theorem foldl_set_perm_length :
    ∀ (js : List (Fin nodes.length)) (mks : List Mark),
    (js.foldl (fun mks j => mks.set j.val Mark.perm) mks).length
      = mks.length := by
  intro js
  induction js with
  | nil => intro mks; rfl
  | cons j js ih => intro mks; simp [ih]

theorem foldl_set_perm_getD_of_notmem :
    ∀ (js : List (Fin nodes.length)) (mks : List Mark) (i : Nat),
    (∀ j ∈ js, j.val ≠ i) →
    (js.foldl (fun mks j => mks.set j.val Mark.perm) mks).getD i Mark.unvisited
      = mks.getD i Mark.unvisited := by
  intro js
  induction js with
  | nil => intro mks i _; rfl
  | cons j js ih =>
    intro mks i hni
    simp only [List.foldl_cons]
    rw [ih _ i (fun j' hj' => hni j' (List.mem_cons_of_mem j hj'))]
    exact getD_set_ne _ _ _ _ _ (hni j (List.mem_cons_self j js))

theorem foldl_set_perm_getD_of_mem :
    ∀ (js : List (Fin nodes.length)) (mks : List Mark) (i : Nat),
    (∃ j ∈ js, j.val = i) → i < mks.length →
    (js.foldl (fun mks j => mks.set j.val Mark.perm) mks).getD i Mark.unvisited
      = Mark.perm := by
  intro js
  induction js with
  | nil =>
    intro mks i hmem _
    obtain ⟨j, hj, _⟩ := hmem
    exact absurd hj (List.not_mem_nil j)
  | cons j js ih =>
    intro mks i hmem hlt
    simp only [List.foldl_cons]
    by_cases hjs : ∃ j' ∈ js, j'.val = i
    · exact ih _ i hjs (by simpa using hlt)
    · obtain ⟨j', hj', hval⟩ := hmem
      have hj'eq : j' = j := by
        rcases List.mem_cons.mp hj' with h | h
        · exact h
        · exact absurd ⟨j', h, hval⟩ hjs
      subst hj'eq
      push_neg at hjs
      rw [foldl_set_perm_getD_of_notmem nodes js _ i hjs]
      rw [hval]
      exact getD_set_self _ _ _ _ (hval ▸ hlt)

theorem foldl_set_perm_finRange :
    (List.finRange nodes.length).foldl
        (fun mks j => mks.set j.val Mark.perm)
        (List.replicate nodes.length Mark.unvisited)
      = List.replicate nodes.length Mark.perm := by
  have hlen : ((List.finRange nodes.length).foldl
      (fun mks j => mks.set j.val Mark.perm)
      (List.replicate nodes.length Mark.unvisited)).length
        = nodes.length := by
    rw [foldl_set_perm_length]
    simp
  apply List.ext_get (by simp [hlen])
  intro i h1 h2
  have hi : i < nodes.length := by omega
  rw [← getD_eq_get _ _ Mark.unvisited h1, ← getD_eq_get _ _ Mark.unvisited h2]
  rw [foldl_set_perm_getD_of_mem nodes (List.finRange nodes.length)
    _ i ⟨⟨i, hi⟩, List.mem_finRange _, rfl⟩ (by simp [hi])]
  rw [getD_eq_get _ _ _ h2]
  simp [List.get_eq_getElem, List.getElem_replicate]

end TopoLemmas

/-! ## C10: marks after a successful `sortByDepends` -/

/-- C10: after a successful call to `sortByDepends` on freshly serialized
nodes (all marks unset), every node carries the permanent mark, and — since
no operation ever resets marks — running the traversal again over the same
node objects (same marks) returns the empty sequence, not the same
ordering. -/
theorem sortByDepends_marks_all_perm {α ρ : Type} (eqf : α → α → Bool)
    (nodes : List (Node α ρ)) (res : List (Node α ρ)) (marks1 : List Mark)
    (h : sortByDepends eqf nodes = Except.ok (res, marks1)) :
    (∀ j, j < nodes.length → marks1.getD j Mark.unvisited = Mark.perm) ∧
    sortByDependsFrom eqf nodes marks1 = Except.ok ([], marks1) := by
  rw [sortByDepends, sortByDependsFrom] at h
  cases ht : topLoop eqf nodes (List.finRange nodes.length)
      ⟨List.replicate nodes.length Mark.unvisited, []⟩ with
  | error e => rw [ht] at h; exact absurd h (by simp)
  | ok st' =>
    rw [ht] at h
    have h2 : Except.ok (st'.result.map nodes.get, st'.marks)
        = Except.ok (res, marks1) := h
    have h3 := Except.ok.inj h2
    have hmk : st'.marks = marks1 := congrArg Prod.snd h3
    obtain ⟨hinv', _, _, hperm', _⟩ :=
      topLoop_ok_facts eqf nodes (List.finRange nodes.length) _ st' ht
        (topoInv_initial eqf nodes) (noTemps_initial nodes)
    constructor
    · intro j hj
      have hp : st'.marks.getD j Mark.unvisited = Mark.perm :=
        hperm' ⟨j, hj⟩ (List.mem_finRange _)
      rw [← hmk]
      exact hp
    · have hskip : topLoop eqf nodes (List.finRange nodes.length)
          ⟨marks1, []⟩ = Except.ok ⟨marks1, []⟩ := by
        apply topLoop_skip
        intro j _
        show marks1.getD j.val Mark.unvisited ≠ Mark.unvisited
        rw [← hmk]
        have hp : st'.marks.getD j.val Mark.unvisited = Mark.perm :=
          hperm' j (List.mem_finRange _)
        rw [hp]
        simp
      rw [sortByDependsFrom, hskip]
      simp

/-- Witness for `sortByDepends_marks_all_perm` at a one-node input. -/
theorem sortByDepends_marks_all_perm_witness :
    (∀ j, j < 1 → [Mark.perm].getD j Mark.unvisited = Mark.perm) ∧
    sortByDependsFrom strEq [nIndA] [Mark.perm] =
      Except.ok ([], [Mark.perm]) :=
  sortByDepends_marks_all_perm strEq [nIndA] [nIndA] [Mark.perm] (by decide)

/-! ## C5 amended: full independence means exact reversal -/

/-- C5 amended: when no dependency relationships exist at all among the
input nodes (no node's `depends` matches any node's id), the topological
orderer returns exactly the reverse of the input sequence (visitation
follows input order and each finished node is prepended), with every mark
permanent.  In particular independent nodes do not retain input relative
order; see `sortByDepends_stability_cex`. -/
theorem sortByDepends_reverses_independent {α ρ : Type}
    (eqf : α → α → Bool) (nodes : List (Node α ρ))
    (hind : ∀ x ∈ nodes, ∀ y ∈ nodes, memBy eqf y.depends x.id = false) :
    sortByDepends eqf nodes =
      Except.ok (nodes.reverse, List.replicate nodes.length Mark.perm) := by
  have hnd2 : ∀ i j : Fin nodes.length,
      memBy eqf (nodes.get j).depends (nodes.get i).id = false := by
    intro i j
    exact hind (nodes.get i) (List.get_mem nodes i.val i.isLt)
      (nodes.get j) (List.get_mem nodes j.val j.isLt)
  have hu : ∀ j : Fin nodes.length, markOf
      (⟨List.replicate nodes.length Mark.unvisited, []⟩ :
        DState nodes.length) j = Mark.unvisited := by
    intro j
    show (List.replicate nodes.length Mark.unvisited).getD j.val Mark.unvisited
        = Mark.unvisited
    have hj : j.val < (List.replicate nodes.length Mark.unvisited).length := by
      simp [j.isLt]
    rw [getD_eq_get _ _ _ hj]
    simp [List.get_eq_getElem, List.getElem_replicate]
  have hloop := topLoop_indep eqf nodes hnd2 (List.finRange nodes.length)
    ⟨List.replicate nodes.length Mark.unvisited, []⟩
    (List.nodup_finRange nodes.length) (fun j _ => hu j) (by simp)
  rw [sortByDepends, sortByDependsFrom, hloop]
  rw [foldl_set_perm_finRange]
  simp only [List.append_nil, Except.ok.injEq, Prod.mk.injEq]
  exact ⟨by rw [List.map_reverse, List.finRange_map_get], trivial⟩

/-- Witness for `sortByDepends_reverses_independent` at the two-node
input. -/
theorem sortByDepends_reverses_independent_witness :
    sortByDepends strEq [nIndA, nIndB] =
      Except.ok (([nIndA, nIndB] : List (Node String Unit)).reverse,
        List.replicate 2 Mark.perm) :=
  sortByDepends_reverses_independent strEq [nIndA, nIndB] (by decide)

/-! ## C2: cycle detection -/

theorem pairwise_indexOf_lt {γ : Type} [DecidableEq γ] {R : γ → γ → Prop}
    {l : List γ} (hp : l.Pairwise R) {a b : γ} (ha : a ∈ l) (hb : b ∈ l)
    (hnab : a ≠ b) (hnR : ¬ R b a) : l.indexOf a < l.indexOf b := by
  have hia := List.indexOf_lt_length.mpr ha
  have hib := List.indexOf_lt_length.mpr hb
  rcases lt_trichotomy (l.indexOf a) (l.indexOf b) with h | h | h
  · exact h
  · exfalso
    apply hnab
    have h1 : l.get ⟨l.indexOf a, hia⟩ = a := List.indexOf_get hia
    have h2 : l.get ⟨l.indexOf b, hib⟩ = b := List.indexOf_get hib
    rw [← h1, ← h2]
    congr 1
    exact Fin.ext h
  · exfalso
    apply hnR
    have := List.pairwise_iff_get.mp hp ⟨l.indexOf b, hib⟩ ⟨l.indexOf a, hia⟩ h
    rwa [List.indexOf_get hib, List.indexOf_get hia] at this

theorem sortByDependsFrom_error_cycle {α ρ : Type} (eqf : α → α → Bool)
    (nodes : List (Node α ρ)) (e : Err α)
    (h : sortByDependsFrom eqf nodes
      (List.replicate nodes.length Mark.unvisited) = Except.error e) :
    ∃ m, Relation.TransGen (Rel eqf nodes) m m ∧
      e = Err.cycle (nodes.get m).id := by
  rw [sortByDependsFrom] at h
  cases ht : topLoop eqf nodes (List.finRange nodes.length)
      ⟨List.replicate nodes.length Mark.unvisited, []⟩ with
  | ok st' => rw [ht] at h; exact absurd h (by simp)
  | error e2 =>
    rw [ht] at h
    have he : e2 = e := by simpa using h
    subst he
    exact topLoop_err_facts eqf nodes (List.finRange nodes.length) _ e2 ht
      (topoInv_initial eqf nodes) (noTemps_initial nodes)

theorem sortByDepends_ok_acyclic {α ρ : Type} (eqf : α → α → Bool)
    (nodes : List (Node α ρ)) (out : List (Node α ρ) × List Mark)
    (h : sortByDepends eqf nodes = Except.ok out) :
    ¬ HasCycle eqf nodes := by
  rw [sortByDepends, sortByDependsFrom] at h
  cases ht : topLoop eqf nodes (List.finRange nodes.length)
      ⟨List.replicate nodes.length Mark.unvisited, []⟩ with
  | error e => rw [ht] at h; exact absurd h (by simp)
  | ok st' =>
    obtain ⟨hinv', _, _, hperm', _⟩ :=
      topLoop_ok_facts eqf nodes (List.finRange nodes.length) _ st' ht
        (topoInv_initial eqf nodes) (noTemps_initial nodes)
    obtain ⟨_, hpr, hnd, hpw, hns, _⟩ := hinv'
    have hmem : ∀ a : Fin nodes.length, a ∈ st'.result := by
      intro a
      exact (hpr a).mp (hperm' a (List.mem_finRange _))
    have horder : ∀ a b : Fin nodes.length, Rel eqf nodes a b →
        st'.result.indexOf a < st'.result.indexOf b := by
      intro a b hrel
      have hne : a ≠ b := by
        intro hab
        subst hab
        exact hns a (hmem a) hrel
      exact pairwise_indexOf_lt hpw (hmem a) (hmem b) hne (fun hn => hn hrel)
    rintro ⟨m, hcyc⟩
    have key : ∀ a b : Fin nodes.length,
        Relation.TransGen (Rel eqf nodes) a b →
        st'.result.indexOf a < st'.result.indexOf b := by
      intro a b hab
      induction hab with
      | single hr => exact horder _ _ hr
      | tail _ hbc ih => exact lt_trans ih (horder _ _ hbc)
    exact absurd (key m m hcyc) (lt_irrefl _)

/-- C2 counterexample: the claim says every input without a cycle returns
normally — it names dangling dependency ids explicitly.  But on the
acyclic one-record input with a dangling depends (`y` depends on the
nonexistent `x`), `sort` raises `TypeError`: the positive-weight pass is
`runInRange(result, -1, 0, ...)`, which visits the out-of-range index `-1`
and reads `undefined.weight`.  The empty input likewise raises (the
negative pass visits index `1`). -/
theorem sortR_error_iff_cycle_cex :
    sortR defaultConfig [recY] = Except.error Err.typeError ∧
    sortR defaultConfig [] = Except.error Err.typeError ∧
    ¬ HasCycle jsEq ([recY].map (serialize defaultConfig)) := by
  refine ⟨by decide, by decide, ?_⟩
  have hnone : ∀ a b : Fin ([recY].map (serialize defaultConfig)).length,
      ¬ Rel jsEq ([recY].map (serialize defaultConfig)) a b := by decide
  rintro ⟨m, hcyc⟩
  cases hcyc with
  | single h => exact hnone _ _ h
  | tail _ h => exact hnone _ _ h

/-! ## Swap primitive lemmas -/

section SwapLemmas

variable {β : Type} [Inhabited β]

theorem getE_eq_getElem (arr : List β) (k : Nat) (h : k < arr.length) :
    getE arr k = arr[k] := by
  rw [getE, getD_eq_get _ _ _ h, List.get_eq_getElem]

theorem getE_append_at (A B : List β) (x : β) :
    getE (A ++ x :: B) A.length = x := by
  induction A with
  | nil => rfl
  | cons a A ih => simpa [getE, List.getD_cons_succ] using ih

theorem getE_append_succ (A B : List β) (x y : β) :
    getE (A ++ x :: y :: B) (A.length + 1) = y := by
  induction A with
  | nil => rfl
  | cons a A ih =>
    simp only [List.cons_append, List.length_cons, getE, List.getD_cons_succ]
    exact ih

theorem getE_append_lt (A B : List β) (k : Nat) (h : k < A.length) :
    getE (A ++ B) k = getE A k := by
  induction A generalizing k with
  | nil => simp at h
  | cons a A ih =>
    cases k with
    | zero => rfl
    | succ k =>
      simp only [List.cons_append, getE, List.getD_cons_succ]
      exact ih k (by simpa using h)

theorem getE_append_add (A B : List β) (k : Nat) :
    getE (A ++ B) (A.length + k) = getE B k := by
  induction A with
  | nil => simp [getE]
  | cons a A ih =>
    have hlen : (a :: A).length + k = (A.length + k) + 1 := by
      simp only [List.length_cons]
      omega
    rw [List.cons_append, hlen]
    show (A ++ B).getD (A.length + k) default = getE B k
    exact ih

theorem decomp_two (arr : List β) (k : Nat) (h : k + 1 < arr.length) :
    arr = arr.take k ++ getE arr k :: getE arr (k + 1) :: arr.drop (k + 2) := by
  have h0 : k < arr.length := by omega
  conv_lhs => rw [← List.take_append_drop k arr]
  congr 1
  rw [List.drop_eq_getElem_cons h0]
  congr 1
  · exact (getE_eq_getElem arr k h0).symm
  · rw [List.drop_eq_getElem_cons (by omega : k + 1 < arr.length)]
    congr 1
    exact (getE_eq_getElem arr (k + 1) h).symm

theorem listSwap_length (arr : List β) (i n : Nat) :
    (listSwap arr i n).length = arr.length := by
  simp [listSwap]

theorem listSwap_down_decomp (A B : List β) (x y : β) :
    listSwap (A ++ x :: y :: B) (A.length + 1) A.length = A ++ y :: x :: B := by
  induction A with
  | nil => rfl
  | cons a A ih =>
    simp only [List.cons_append, List.length_cons, listSwap, getE,
      List.getD_cons_succ, List.set_cons_succ]
    simpa [listSwap, getE] using ih

theorem listSwap_up_decomp (A B : List β) (x y : β) :
    listSwap (A ++ x :: y :: B) A.length (A.length + 1) = A ++ y :: x :: B := by
  induction A with
  | nil => rfl
  | cons a A ih =>
    simp only [List.cons_append, List.length_cons, listSwap, getE,
      List.getD_cons_succ, List.set_cons_succ]
    simpa [listSwap, getE] using ih

theorem swapDownAux_ind (cmp : β → β → Bool) (lo : Nat)
    (P : List β → Nat → Prop)
    (hstep : ∀ arr p, lo < p → P arr p →
      cmp (getE arr p) (getE arr (p - 1)) = true →
      P (listSwap arr p (p - 1)) (p - 1)) :
    ∀ (c : Nat) (arr : List β) (i : Nat), i = lo + c → P arr i →
      P (swapDownAux cmp arr i c).1 (swapDownAux cmp arr i c).2 ∧
      lo ≤ (swapDownAux cmp arr i c).2 ∧ (swapDownAux cmp arr i c).2 ≤ i := by
  intro c
  induction c with
  | zero =>
    intro arr i hi hP
    simp only [swapDownAux]
    exact ⟨hP, by omega, le_refl _⟩
  | succ c ih =>
    intro arr i hi hP
    simp only [swapDownAux]
    by_cases hc : cmp (getE arr i) (getE arr (i - 1)) = true
    · rw [if_pos hc]
      have hP1 : P (listSwap arr i (i - 1)) (i - 1) :=
        hstep arr i (by omega) hP hc
      by_cases hc0 : c = 0
      · subst hc0
        rw [if_pos rfl]
        exact ⟨hP1, by omega, by omega⟩
      · rw [if_neg hc0]
        have := ih (listSwap arr i (i - 1)) (i - 1) (by omega) hP1
        exact ⟨this.1, this.2.1, by omega⟩
    · rw [if_neg hc]
      exact ⟨hP, by omega, le_refl _⟩

theorem swapUpAux_ind (cmp : β → β → Bool) (hi : Nat)
    (P : List β → Nat → Prop)
    (hstep : ∀ arr p, p < hi → P arr p →
      cmp (getE arr p) (getE arr (p + 1)) = true →
      P (listSwap arr p (p + 1)) (p + 1)) :
    ∀ (c : Nat) (arr : List β) (i : Nat), i + c = hi → P arr i →
      P (swapUpAux cmp arr i c).1 (swapUpAux cmp arr i c).2 ∧
      i ≤ (swapUpAux cmp arr i c).2 ∧ (swapUpAux cmp arr i c).2 ≤ hi := by
  intro c
  induction c with
  | zero =>
    intro arr i hi2 hP
    simp only [swapUpAux]
    exact ⟨hP, le_refl _, by omega⟩
  | succ c ih =>
    intro arr i hi2 hP
    simp only [swapUpAux]
    by_cases hc : cmp (getE arr i) (getE arr (i + 1)) = true
    · rw [if_pos hc]
      have hP1 : P (listSwap arr i (i + 1)) (i + 1) :=
        hstep arr i (by omega) hP hc
      by_cases hc0 : c = 0
      · subst hc0
        rw [if_pos rfl]
        exact ⟨hP1, by omega, by omega⟩
      · rw [if_neg hc0]
        have := ih (listSwap arr i (i + 1)) (i + 1) (by omega) hP1
        exact ⟨this.1, by omega, this.2.2⟩
    · rw [if_neg hc]
      exact ⟨hP, le_refl _, by omega⟩

theorem swapInRange_eq_down (arr : List β) (i t : Nat) (cmp : β → β → Bool)
    (h : t < i) : swapInRange arr i t cmp = swapDownAux cmp arr i (i - t) := by
  rw [swapInRange, if_neg (by omega), if_neg (by omega)]

theorem swapInRange_eq_up (arr : List β) (i t : Nat) (cmp : β → β → Bool)
    (h : i < t) : swapInRange arr i t cmp = swapUpAux cmp arr i (t - i) := by
  rw [swapInRange, if_neg (by omega), if_pos (by omega)]

theorem swapInRange_self (arr : List β) (i : Nat) (cmp : β → β → Bool) :
    swapInRange arr i i cmp = (arr, i) := by
  rw [swapInRange, if_pos rfl]

theorem swapUpAux_length (cmp : β → β → Bool) :
    ∀ (c : Nat) (arr : List β) (i : Nat),
    ((swapUpAux cmp arr i c).1).length = arr.length := by
  intro c
  induction c with
  | zero => intro arr i; rfl
  | succ c ih =>
    intro arr i
    simp only [swapUpAux]
    by_cases hc : cmp (getE arr i) (getE arr (i + 1)) = true
    · rw [if_pos hc]
      by_cases hc0 : c = 0
      · subst hc0
        rw [if_pos rfl]
        exact listSwap_length arr i (i + 1)
      · rw [if_neg hc0, ih]
        exact listSwap_length arr i (i + 1)
    · rw [if_neg hc]

theorem swapDownAux_length (cmp : β → β → Bool) :
    ∀ (c : Nat) (arr : List β) (i : Nat),
    ((swapDownAux cmp arr i c).1).length = arr.length := by
  intro c
  induction c with
  | zero => intro arr i; rfl
  | succ c ih =>
    intro arr i
    simp only [swapDownAux]
    by_cases hc : cmp (getE arr i) (getE arr (i - 1)) = true
    · rw [if_pos hc]
      by_cases hc0 : c = 0
      · subst hc0
        rw [if_pos rfl]
        exact listSwap_length arr i (i - 1)
      · rw [if_neg hc0, ih]
        exact listSwap_length arr i (i - 1)
    · rw [if_neg hc]

theorem swapInRange_length (arr : List β) (i t : Nat) (cmp : β → β → Bool) :
    ((swapInRange arr i t cmp).1).length = arr.length := by
  rw [swapInRange]
  by_cases h1 : i = t
  · rw [if_pos h1]
  · rw [if_neg h1]
    by_cases h2 : i < t
    · rw [if_pos h2]
      exact swapUpAux_length cmp (t - i) arr i
    · rw [if_neg h2]
      exact swapDownAux_length cmp (i - t) arr i

end SwapLemmas

/-! ## Topological validity through the weight passes -/

section ValidLemmas

variable {α ρ : Type} [Inhabited α] [Inhabited ρ] (eqf : α → α → Bool)

theorem validO_swap (A B : List (Node α ρ)) (x y : Node α ρ)
    (hv : ValidO eqf (A ++ x :: y :: B)) (hyx : dependsOnB eqf y x = false) :
    ValidO eqf (A ++ y :: x :: B) := by
  unfold ValidO at hv ⊢
  rw [List.pairwise_append] at hv ⊢
  obtain ⟨hA, hxyB, hcross⟩ := hv
  rw [List.pairwise_cons] at hxyB
  obtain ⟨hx, hyB⟩ := hxyB
  rw [List.pairwise_cons] at hyB
  obtain ⟨hy, hB⟩ := hyB
  refine ⟨hA, ?_, ?_⟩
  · rw [List.pairwise_cons]
    refine ⟨?_, ?_⟩
    · intro b hb
      rcases List.mem_cons.mp hb with hb | hb
      · subst hb; exact hyx
      · exact hy b hb
    · rw [List.pairwise_cons]
      exact ⟨fun b hb => hx b (List.mem_cons_of_mem y hb), hB⟩
  · intro a ha b hb
    apply hcross a ha
    rcases List.mem_cons.mp hb with hb | hb
    · rw [hb]; exact List.mem_cons_of_mem x (List.mem_cons_self y B)
    · rcases List.mem_cons.mp hb with hb | hb
      · rw [hb]; exact List.mem_cons_self x (y :: B)
      · exact List.mem_cons_of_mem x (List.mem_cons_of_mem y hb)

theorem validO_adj (T D : List (Node α ρ)) (a b : Node α ρ)
    (h : ValidO eqf (T ++ a :: b :: D)) : dependsOnB eqf a b = false := by
  unfold ValidO at h
  rw [List.pairwise_append] at h
  have h2 := h.2.1
  rw [List.pairwise_cons] at h2
  exact h2.1 b (List.mem_cons_self b D)

theorem getE_cons_cons (u v : Node α ρ) (D : List (Node α ρ)) (m : Nat) :
    getE (u :: v :: D) (m + 2) = getE D m := rfl

theorem getE_two_high (T D : List (Node α ρ)) (u v x y : Node α ρ) (k : Nat)
    (h : T.length + 2 ≤ k) :
    getE (T ++ u :: v :: D) k = getE (T ++ x :: y :: D) k := by
  have hk : k = T.length + (k - T.length) := by omega
  rw [hk, getE_append_add, getE_append_add]
  have hm : k - T.length = (k - T.length - 2) + 2 := by omega
  rw [hm, getE_cons_cons, getE_cons_cons]

theorem negMoveInv_down_step (arr0 : List (Node α ρ)) (L i : Nat)
    (mv : Node α ρ) (arr : List (Node α ρ)) (p : Nat) (hp : 0 < p)
    (hP : NegMoveInv eqf arr0 L i mv arr p)
    (hc : negGuard eqf (getE arr p) (getE arr (p - 1)) = true) :
    NegMoveInv eqf arr0 L i mv (listSwap arr p (p - 1)) (p - 1) := by
  obtain ⟨hlen, hpL, hmv, hv, hperm, hreg⟩ := hP
  have hdec : arr = arr.take (p - 1) ++
      getE arr (p - 1) :: getE arr p :: arr.drop (p + 1) := by
    have := decomp_two arr (p - 1) (by omega)
    rwa [show p - 1 + 1 = p from by omega, show p - 1 + 2 = p + 1 from by omega]
      at this
  set T := arr.take (p - 1) with hT
  set a := getE arr (p - 1) with ha
  set D := arr.drop (p + 1) with hD
  have hTlen : T.length = p - 1 := length_take_of_le arr (p - 1) (by omega)
  have hguard : dependsOnB eqf mv a = false := by
    rw [negGuard, hmv] at hc
    simp only [Bool.not_eq_true', ← ha] at hc
    exact hc
  have hswap : listSwap arr p (p - 1) = T ++ mv :: a :: D := by
    conv_lhs => rw [hdec, hmv]
    rw [show p = T.length + 1 from by omega]
    exact listSwap_down_decomp T D a mv
  have hvdec : ValidO eqf (T ++ a :: mv :: D) := by
    have hdec2 : arr = T ++ a :: mv :: D := by rw [hdec, hmv]
    rw [← hdec2]; exact hv
  have hdec2 : arr = T ++ a :: mv :: D := by rw [hdec, hmv]
  refine ⟨?_, by omega, ?_, ?_, ?_, ?_⟩
  · rw [listSwap_length]; exact hlen
  · rw [hswap, show p - 1 = T.length from by omega]
    exact getE_append_at T (a :: D) mv
  · rw [hswap]
    exact validO_swap eqf T D a mv hvdec hguard
  · rw [hswap]
    refine List.Perm.trans ?_ hperm
    conv_rhs => rw [hdec2]
    exact List.Perm.append_left T (List.Perm.swap a mv D)
  · intro k hk1 hk2
    rw [hswap]
    by_cases hkp : k = p
    · subst hkp
      have hget : getE (T ++ mv :: a :: D) k = a := by
        rw [show k = T.length + 1 from by omega]
        exact getE_append_succ T D mv a
      rw [hget]
      exact validO_adj eqf T D a mv hvdec
    · have hk3 : p < k := by omega
      have heq : getE (T ++ mv :: a :: D) k = getE (T ++ a :: mv :: D) k :=
        getE_two_high T D mv a a mv k (by omega)
      rw [heq, ← hdec2]
      exact hreg k hk3 hk2

theorem negMoveInv_up_step (arr0 : List (Node α ρ)) (L i : Nat)
    (mv : Node α ρ) (arr : List (Node α ρ)) (p : Nat) (hpi : p < i)
    (hiL : i < L)
    (hP : NegMoveInv eqf arr0 L i mv arr p)
    (hc : negWGuard (getE arr p) (getE arr (p + 1)) = true) :
    NegMoveInv eqf arr0 L i mv (listSwap arr p (p + 1)) (p + 1) := by
  obtain ⟨hlen, hpL, hmv, hv, hperm, hreg⟩ := hP
  have hdec : arr = arr.take p ++
      getE arr p :: getE arr (p + 1) :: arr.drop (p + 2) := by
    exact decomp_two arr p (by omega)
  set T := arr.take p with hT
  set b := getE arr (p + 1) with hb
  set D := arr.drop (p + 2) with hD
  have hTlen : T.length = p := length_take_of_le arr p (by omega)
  have hbreg : dependsOnB eqf b mv = false := hreg (p + 1) (by omega) (by omega)
  have hdec2 : arr = T ++ mv :: b :: D := by rw [hdec, hmv]
  have hswap : listSwap arr p (p + 1) = T ++ b :: mv :: D := by
    conv_lhs => rw [hdec2]
    rw [show p = T.length from by omega]
    exact listSwap_up_decomp T D mv b
  have hvdec : ValidO eqf (T ++ mv :: b :: D) := by rw [← hdec2]; exact hv
  refine ⟨?_, by omega, ?_, ?_, ?_, ?_⟩
  · rw [listSwap_length]; exact hlen
  · rw [hswap, show p + 1 = T.length + 1 from by omega]
    exact getE_append_succ T D b mv
  · rw [hswap]
    exact validO_swap eqf T D mv b hvdec hbreg
  · rw [hswap]
    refine List.Perm.trans ?_ hperm
    conv_rhs => rw [hdec2]
    exact List.Perm.append_left T (List.Perm.swap mv b D)
  · intro k hk1 hk2
    rw [hswap]
    have heq : getE (T ++ b :: mv :: D) k = getE (T ++ mv :: b :: D) k :=
      getE_two_high T D b mv mv b k (by omega)
    rw [heq, ← hdec2]
    exact hreg k (by omega) hk2

theorem posMoveInv_up_step (arr0 : List (Node α ρ)) (L i : Nat)
    (mv : Node α ρ) (arr : List (Node α ρ)) (p : Nat) (hp : p < L - 1)
    (hP : PosMoveInv eqf arr0 L i mv arr p)
    (hc : posGuard eqf (getE arr p) (getE arr (p + 1)) = true) :
    PosMoveInv eqf arr0 L i mv (listSwap arr p (p + 1)) (p + 1) := by
  obtain ⟨hlen, hpL, hmv, hv, hperm, hreg⟩ := hP
  have hdec : arr = arr.take p ++
      getE arr p :: getE arr (p + 1) :: arr.drop (p + 2) :=
    decomp_two arr p (by omega)
  set T := arr.take p with hT
  set b := getE arr (p + 1) with hb
  set D := arr.drop (p + 2) with hD
  have hTlen : T.length = p := length_take_of_le arr p (by omega)
  have hguard : dependsOnB eqf b mv = false := by
    rw [posGuard, hmv] at hc
    simp only [Bool.not_eq_true', ← hb] at hc
    exact hc
  have hdec2 : arr = T ++ mv :: b :: D := by rw [hdec, hmv]
  have hswap : listSwap arr p (p + 1) = T ++ b :: mv :: D := by
    conv_lhs => rw [hdec2]
    rw [show p = T.length from by omega]
    exact listSwap_up_decomp T D mv b
  have hvdec : ValidO eqf (T ++ mv :: b :: D) := by rw [← hdec2]; exact hv
  refine ⟨?_, by omega, ?_, ?_, ?_, ?_⟩
  · rw [listSwap_length]; exact hlen
  · rw [hswap, show p + 1 = T.length + 1 from by omega]
    exact getE_append_succ T D b mv
  · rw [hswap]
    exact validO_swap eqf T D mv b hvdec hguard
  · rw [hswap]
    refine List.Perm.trans ?_ hperm
    conv_rhs => rw [hdec2]
    exact List.Perm.append_left T (List.Perm.swap mv b D)
  · intro k hk1 hk2
    rw [hswap]
    by_cases hkp : k = p
    · subst hkp
      have hget : getE (T ++ b :: mv :: D) k = b := by
        rw [show k = T.length from by omega]
        exact getE_append_at T (mv :: D) b
      rw [hget]
      exact validO_adj eqf T D mv b hvdec
    · have hklt : k < p := by omega
      have heq : getE (T ++ b :: mv :: D) k = getE (T ++ mv :: b :: D) k := by
        rw [getE_append_lt _ _ k (by omega), getE_append_lt _ _ k (by omega)]
      rw [heq, ← hdec2]
      exact hreg k hk1 hklt

theorem posMoveInv_down_step (arr0 : List (Node α ρ)) (L i : Nat)
    (mv : Node α ρ) (arr : List (Node α ρ)) (p : Nat) (hpi : i < p)
    (hP : PosMoveInv eqf arr0 L i mv arr p)
    (hc : posWGuard (getE arr p) (getE arr (p - 1)) = true) :
    PosMoveInv eqf arr0 L i mv (listSwap arr p (p - 1)) (p - 1) := by
  obtain ⟨hlen, hpL, hmv, hv, hperm, hreg⟩ := hP
  have hdec : arr = arr.take (p - 1) ++
      getE arr (p - 1) :: getE arr p :: arr.drop (p + 1) := by
    have := decomp_two arr (p - 1) (by omega)
    rwa [show p - 1 + 1 = p from by omega, show p - 1 + 2 = p + 1 from by omega]
      at this
  set T := arr.take (p - 1) with hT
  set a := getE arr (p - 1) with ha
  set D := arr.drop (p + 1) with hD
  have hTlen : T.length = p - 1 := length_take_of_le arr (p - 1) (by omega)
  have hareg : dependsOnB eqf mv a = false := hreg (p - 1) (by omega) (by omega)
  have hdec2 : arr = T ++ a :: mv :: D := by rw [hdec, hmv]
  have hswap : listSwap arr p (p - 1) = T ++ mv :: a :: D := by
    conv_lhs => rw [hdec2]
    rw [show p = T.length + 1 from by omega]
    exact listSwap_down_decomp T D a mv
  have hvdec : ValidO eqf (T ++ a :: mv :: D) := by rw [← hdec2]; exact hv
  refine ⟨?_, by omega, ?_, ?_, ?_, ?_⟩
  · rw [listSwap_length]; exact hlen
  · rw [hswap, show p - 1 = T.length from by omega]
    exact getE_append_at T (a :: D) mv
  · rw [hswap]
    exact validO_swap eqf T D a mv hvdec hareg
  · rw [hswap]
    refine List.Perm.trans ?_ hperm
    conv_rhs => rw [hdec2]
    exact List.Perm.append_left T (List.Perm.swap a mv D)
  · intro k hk1 hk2
    rw [hswap]
    have heq : getE (T ++ mv :: a :: D) k = getE (T ++ a :: mv :: D) k := by
      rw [getE_append_lt _ _ k (by omega), getE_append_lt _ _ k (by omega)]
    rw [heq, ← hdec2]
    exact hreg k hk1 (by omega)

theorem negStep_preserves (arr0 arr : List (Node α ρ)) (L i : Nat)
    (hlen : arr.length = L) (h0 : 0 < i) (hi : i < L)
    (hv : ValidO eqf arr) (hperm : arr.Perm arr0) :
    ValidO eqf (negStep eqf arr i) ∧ (negStep eqf arr i).length = L ∧
      (negStep eqf arr i).Perm arr0 := by
  by_cases hw : jltb (getE arr i).weight jzero = true
  · have hstep : negStep eqf arr i =
        (swapInRange (swapInRange arr i 0 (negGuard eqf)).1
          (swapInRange arr i 0 (negGuard eqf)).2 i
          (negWGuard : Node α ρ → Node α ρ → Bool)).1 := by
      simp only [negStep]
      rw [if_pos hw]
    have hP0 : NegMoveInv eqf arr0 L i (getE arr i) arr i :=
      ⟨hlen, hi, rfl, hv, hperm, fun k h1 h2 => absurd h1 (by omega)⟩
    rw [hstep, swapInRange_eq_down arr i 0 _ h0]
    obtain ⟨hP1, hge, hle⟩ := swapDownAux_ind (negGuard eqf) 0
      (NegMoveInv eqf arr0 L i (getE arr i))
      (fun arr' p hp hP hc =>
        negMoveInv_down_step eqf arr0 L i (getE arr i) arr' p hp hP hc)
      (i - 0) arr i (by omega) hP0
    set s1 := swapDownAux (negGuard eqf) arr i (i - 0) with hs1
    by_cases hsi : s1.2 = i
    · rw [hsi, swapInRange_self]
      exact ⟨hP1.2.2.2.1, hP1.1, hP1.2.2.2.2.1⟩
    · rw [swapInRange_eq_up _ _ _ _ (by omega)]
      obtain ⟨hP2, _, _⟩ := swapUpAux_ind
        (negWGuard : Node α ρ → Node α ρ → Bool) i
        (NegMoveInv eqf arr0 L i (getE arr i))
        (fun arr' p hp hP hc =>
          negMoveInv_up_step eqf arr0 L i (getE arr i) arr' p hp hi hP hc)
        (i - s1.2) s1.1 s1.2 (by omega) hP1
      exact ⟨hP2.2.2.2.1, hP2.1, hP2.2.2.2.2.1⟩
  · have hstep : negStep eqf arr i = arr := by
      simp only [negStep]
      rw [if_neg hw]
    rw [hstep]
    exact ⟨hv, hlen, hperm⟩

theorem posStep_preserves (arr0 arr : List (Node α ρ)) (L i : Nat)
    (hlen : arr.length = L) (hi : i < L - 1)
    (hv : ValidO eqf arr) (hperm : arr.Perm arr0) :
    ValidO eqf (posStep eqf arr i) ∧ (posStep eqf arr i).length = L ∧
      (posStep eqf arr i).Perm arr0 := by
  by_cases hw : jltb jzero (getE arr i).weight = true
  · have hstep : posStep eqf arr i =
        (swapInRange (swapInRange arr i (arr.length - 1) (posGuard eqf)).1
          (swapInRange arr i (arr.length - 1) (posGuard eqf)).2 i
          (posWGuard : Node α ρ → Node α ρ → Bool)).1 := by
      simp only [posStep]
      rw [if_pos hw]
    have hP0 : PosMoveInv eqf arr0 L i (getE arr i) arr i :=
      ⟨hlen, by omega, rfl, hv, hperm, fun k h1 h2 => absurd h1 (by omega)⟩
    rw [hstep, hlen, swapInRange_eq_up arr i (L - 1) _ (by omega)]
    obtain ⟨hP1, hge, hle⟩ := swapUpAux_ind (posGuard eqf) (L - 1)
      (PosMoveInv eqf arr0 L i (getE arr i))
      (fun arr' p hp hP hc =>
        posMoveInv_up_step eqf arr0 L i (getE arr i) arr' p hp hP hc)
      (L - 1 - i) arr i (by omega) hP0
    set s1 := swapUpAux (posGuard eqf) arr i (L - 1 - i) with hs1
    by_cases hsi : s1.2 = i
    · rw [hsi, swapInRange_self]
      exact ⟨hP1.2.2.2.1, hP1.1, hP1.2.2.2.2.1⟩
    · rw [swapInRange_eq_down _ _ _ _ (by omega)]
      obtain ⟨hP2, _, _⟩ := swapDownAux_ind
        (posWGuard : Node α ρ → Node α ρ → Bool) i
        (PosMoveInv eqf arr0 L i (getE arr i))
        (fun arr' p hp hP hc =>
          posMoveInv_down_step eqf arr0 L i (getE arr i) arr' p hp hP hc)
        (s1.2 - i) s1.1 s1.2 (by omega) hP1
      exact ⟨hP2.2.2.2.1, hP2.1, hP2.2.2.2.2.1⟩
  · have hstep : posStep eqf arr i = arr := by
      simp only [posStep]
      rw [if_neg hw]
    rw [hstep]
    exact ⟨hv, hlen, hperm⟩

theorem negPass_fold_preserves (arr0 : List (Node α ρ)) (L : Nat) :
    ∀ (l : List Nat) (cur : List (Node α ρ)),
    (∀ i ∈ l, 0 < i ∧ i < L) →
    cur.length = L → ValidO eqf cur → cur.Perm arr0 →
    ValidO eqf (l.foldl (negStep eqf) cur) ∧
    (l.foldl (negStep eqf) cur).length = L ∧
    (l.foldl (negStep eqf) cur).Perm arr0 := by
  intro l
  induction l with
  | nil => intro cur _ h1 h2 h3; exact ⟨h2, h1, h3⟩
  | cons i l ih =>
    intro cur hb h1 h2 h3
    obtain ⟨hi0, hiL⟩ := hb i (List.mem_cons_self i l)
    obtain ⟨hv', hl', hp'⟩ :=
      negStep_preserves eqf arr0 cur L i h1 hi0 hiL h2 h3
    exact ih (negStep eqf cur i)
      (fun j hj => hb j (List.mem_cons_of_mem i hj)) hl' hv' hp'

theorem posPass_fold_preserves (arr0 : List (Node α ρ)) (L : Nat) :
    ∀ (l : List Nat) (cur : List (Node α ρ)),
    (∀ i ∈ l, i < L - 1) →
    cur.length = L → ValidO eqf cur → cur.Perm arr0 →
    ValidO eqf (l.foldl (posStep eqf) cur) ∧
    (l.foldl (posStep eqf) cur).length = L ∧
    (l.foldl (posStep eqf) cur).Perm arr0 := by
  intro l
  induction l with
  | nil => intro cur _ h1 h2 h3; exact ⟨h2, h1, h3⟩
  | cons i l ih =>
    intro cur hb h1 h2 h3
    obtain ⟨hv', hl', hp'⟩ := posStep_preserves eqf arr0 cur L i h1
      (hb i (List.mem_cons_self i l)) h2 h3
    exact ih (posStep eqf cur i)
      (fun j hj => hb j (List.mem_cons_of_mem i hj)) hl' hv' hp'

/-- The weight passes never move any node across a dependency boundary: a
topologically valid sequence stays topologically valid, and the output is a
permutation of the input. -/
theorem sortByWeightOk_valid (arr : List (Node α ρ)) (hv : ValidO eqf arr) :
    ValidO eqf (sortByWeightOk eqf arr) ∧
    (sortByWeightOk eqf arr).Perm arr := by
  have hneg := negPass_fold_preserves eqf arr arr.length
    (negIdxs arr.length) arr
    (by
      intro i hi
      rw [negIdxs, List.mem_range'_1] at hi
      omega)
    rfl hv (List.Perm.refl arr)
  rw [sortByWeightOk, negPass] at *
  set mid := (negIdxs arr.length).foldl (negStep eqf) arr with hmid
  obtain ⟨hvmid, hlmid, hpmid⟩ := hneg
  have hpos := posPass_fold_preserves eqf arr arr.length
    (posIdxs mid.length) mid
    (by
      intro i hi
      rw [posIdxs, List.mem_reverse, List.mem_range'_1] at hi
      omega)
    hlmid hvmid hpmid
  rw [posPass]
  exact ⟨hpos.1, hpos.2.2⟩

end ValidLemmas

/-! ## The faithful weight passes: in-range folds below length 2 throw -/

section RunPassLemmas

variable {α ρ : Type} [Inhabited α] [Inhabited ρ] (eqf : α → α → Bool)

theorem negStep_length (arr : List (Node α ρ)) (i : Nat) :
    (negStep eqf arr i).length = arr.length := by
  simp only [negStep]
  by_cases hc : jltb (getE arr i).weight jzero = true
  · rw [if_pos hc, swapInRange_length, swapInRange_length]
  · rw [if_neg hc]

theorem posStep_length (arr : List (Node α ρ)) (i : Nat) :
    (posStep eqf arr i).length = arr.length := by
  simp only [posStep]
  by_cases hc : jltb jzero (getE arr i).weight = true
  · rw [if_pos hc, swapInRange_length, swapInRange_length]
  · rw [if_neg hc]

theorem foldl_step_length (stepf : List (Node α ρ) → Nat → List (Node α ρ))
    (hpres : ∀ a i, (stepf a i).length = a.length) :
    ∀ (l : List Nat) (arr : List (Node α ρ)),
    (l.foldl stepf arr).length = arr.length := by
  intro l
  induction l with
  | nil => intro arr; rfl
  | cons i l ih =>
    intro arr
    rw [List.foldl_cons, ih, hpres]

theorem negPass_length (arr : List (Node α ρ)) :
    (negPass eqf arr).length = arr.length :=
  foldl_step_length (negStep eqf) (negStep_length eqf) _ arr

theorem runIdxs_up (f t : Int) (h : f ≤ t) :
    runIdxs f t = (List.range (t - f).toNat).map (fun (k : Nat) => f + (k : Int)) := by
  rw [runIdxs, if_pos h]

theorem runIdxs_down (f t : Int) (h : t < f) :
    runIdxs f t = (List.range (f - t).toNat).map (fun (k : Nat) => f - (k : Int)) := by
  rw [runIdxs, if_neg (by omega)]

/-- When every visited index is in range, the pass never throws and is the
plain fold of the callback over those indices. -/
theorem runPass_of_inrange (stepf : List (Node α ρ) → Nat → List (Node α ρ))
    (hpres : ∀ a i, (stepf a i).length = a.length) :
    ∀ (idxs : List Int) (arr : List (Node α ρ)),
    (∀ i ∈ idxs, 0 ≤ i ∧ i < (arr.length : Int)) →
    runPass stepf idxs arr = Except.ok ((idxs.map Int.toNat).foldl stepf arr) := by
  intro idxs
  induction idxs with
  | nil => intro arr _; rfl
  | cons i is ih =>
    intro arr hin
    simp only [runPass]
    rw [if_pos (hin i (List.mem_cons_self i is))]
    rw [List.map_cons, List.foldl_cons]
    refine ih (stepf arr i.toNat) (fun j hj => ?_)
    rw [hpres arr i.toNat]
    exact hin j (List.mem_cons_of_mem i hj)

theorem runIdxs_neg_toNat (len : Nat) (h1 : 1 ≤ len) :
    (runIdxs 1 (len : Int)).map Int.toNat = negIdxs len := by
  rw [runIdxs_up 1 (len : Int) (by omega), List.map_map,
    show ((len : Int) - 1).toNat = len - 1 from by omega,
    negIdxs, List.range'_eq_map_range]
  apply List.map_congr_left
  intro k _
  show ((1 : Int) + (k : Int)).toNat = 1 + k
  omega

theorem runIdxs_pos_toNat (len : Nat) (h2 : 2 ≤ len) :
    (runIdxs ((len : Int) - 2) 0).map Int.toNat = posIdxs len := by
  by_cases h3 : 3 ≤ len
  · rw [runIdxs_down _ _ (by omega), List.map_map,
      show ((len : Int) - 2 - 0).toNat = len - 2 from by omega,
      posIdxs, List.reverse_range']
    apply List.map_congr_left
    intro k hk
    rw [List.mem_range] at hk
    show (((len : Int) - 2) - (k : Int)).toNat = 1 + (len - 2) - 1 - k
    omega
  · have hlen2 : len = 2 := by omega
    subst hlen2
    decide

/-- For nonempty arrays the negative pass stays in range. -/
theorem negPassE_ok (arr : List (Node α ρ)) (h1 : 1 ≤ arr.length) :
    negPassE eqf arr = Except.ok (negPass eqf arr) := by
  rw [negPassE, runPass_of_inrange (negStep eqf) (negStep_length eqf) _ arr ?_]
  · rw [runIdxs_neg_toNat arr.length h1, negPass]
  · intro i hi
    rw [runIdxs_up 1 (arr.length : Int) (by omega)] at hi
    obtain ⟨k, hk, rfl⟩ := List.mem_map.mp hi
    rw [List.mem_range] at hk
    omega

/-- On the empty array the negative pass visits the out-of-range index `1`
and throws. -/
theorem negPassE_err (arr : List (Node α ρ)) (h0 : arr.length = 0) :
    negPassE eqf arr = Except.error Err.typeError := by
  rw [negPassE]
  have hidx : runIdxs 1 ((arr.length : Nat) : Int) = [1] := by
    rw [h0]
    decide
  rw [hidx]
  simp only [runPass]
  rw [if_neg (by simp [h0])]

/-- For arrays of length at least 2 the positive pass stays in range. -/
theorem posPassE_ok (arr : List (Node α ρ)) (h2 : 2 ≤ arr.length) :
    posPassE eqf arr = Except.ok (posPass eqf arr) := by
  rw [posPassE, runPass_of_inrange (posStep eqf) (posStep_length eqf) _ arr ?_]
  · rw [runIdxs_pos_toNat arr.length h2, posPass]
  · intro i hi
    by_cases h3 : 3 ≤ arr.length
    · rw [runIdxs_down _ _ (by omega)] at hi
      obtain ⟨k, hk, rfl⟩ := List.mem_map.mp hi
      rw [List.mem_range] at hk
      omega
    · have hlen2 : arr.length = 2 := by omega
      rw [hlen2] at hi
      have : runIdxs (((2 : Nat) : Int) - 2) 0 = [] := by decide
      rw [this] at hi
      exact absurd hi (List.not_mem_nil i)

/-- On a one-element array the positive pass visits the out-of-range index
`-1` and throws. -/
theorem posPassE_err1 (arr : List (Node α ρ)) (h1 : arr.length = 1) :
    posPassE eqf arr = Except.error Err.typeError := by
  rw [posPassE]
  have hidx : runIdxs (((arr.length : Nat) : Int) - 2) 0 = [-1] := by
    rw [h1]
    decide
  rw [hidx]
  simp only [runPass]
  rw [if_neg (by simp)]

/-- For arrays of length at least 2, `sortByWeight` does not throw and
computes the two in-range passes. -/
theorem sortByWeight_eq (arr : List (Node α ρ)) (h2 : 2 ≤ arr.length) :
    sortByWeight eqf arr = Except.ok (sortByWeightOk eqf arr) := by
  rw [sortByWeight, negPassE_ok eqf arr (by omega)]
  show posPassE eqf (negPass eqf arr) = Except.ok (sortByWeightOk eqf arr)
  rw [posPassE_ok eqf _ (by rw [negPass_length]; omega), sortByWeightOk]

/-- For arrays of length 0 and 1, `sortByWeight` throws `TypeError`. -/
theorem sortByWeight_short (arr : List (Node α ρ)) (h : arr.length < 2) :
    sortByWeight eqf arr = Except.error Err.typeError := by
  by_cases h0 : arr.length = 0
  · rw [sortByWeight, negPassE_err eqf arr h0]
  · have h1 : arr.length = 1 := by omega
    rw [sortByWeight, negPassE_ok eqf arr (by omega)]
    show posPassE eqf (negPass eqf arr) = Except.error Err.typeError
    exact posPassE_err1 eqf _ (by rw [negPass_length]; omega)

/-- A non-throwing `sortByWeight` run means the array had length at least
2 and the result is the in-range composition. -/
theorem sortByWeight_ok_elim (arr w : List (Node α ρ))
    (h : sortByWeight eqf arr = Except.ok w) :
    2 ≤ arr.length ∧ w = sortByWeightOk eqf arr := by
  by_cases h2 : 2 ≤ arr.length
  · rw [sortByWeight_eq eqf arr h2] at h
    exact ⟨h2, (Except.ok.inj h).symm⟩
  · rw [sortByWeight_short eqf arr (by omega)] at h
    exact absurd h (by simp)

end RunPassLemmas

/-! ## C1 and C6: the pipeline preserves dependency order and records -/

theorem indexOf_map_of_inj {γ δ : Type} [DecidableEq γ] [DecidableEq δ]
    (l : List γ) (f : γ → δ) (a : γ)
    (hinj : ∀ x ∈ l, f x = f a → x = a) :
    (l.map f).indexOf (f a) = l.indexOf a := by
  induction l with
  | nil => rfl
  | cons x xs ih =>
    by_cases hxa : x = a
    · subst hxa
      simp [List.indexOf_cons_self]
    · have hfx : f x ≠ f a := fun hf =>
        hxa (hinj x (List.mem_cons_self x xs) hf)
      rw [List.map_cons, List.indexOf_cons_ne _ hfx, List.indexOf_cons_ne _ hxa,
        ih (fun y hy => hinj y (List.mem_cons_of_mem x hy))]

theorem get_ne_of_ref_nodup (records : List Record)
    (h : (records.map Record.ref).Nodup) (p q : Fin records.length)
    (hpq : p ≠ q) : records.get p ≠ records.get q := by
  intro he
  apply hpq
  have hinj := List.nodup_iff_injective_get.mp h
  have hp2 : p.val < (records.map Record.ref).length := by
    simpa using p.isLt
  have hq2 : q.val < (records.map Record.ref).length := by
    simpa using q.isLt
  have hgp : (records.map Record.ref).get ⟨p.val, hp2⟩
      = Record.ref (records.get p) := by
    simp [List.get_eq_getElem, List.getElem_map]
  have hgq : (records.map Record.ref).get ⟨q.val, hq2⟩
      = Record.ref (records.get q) := by
    simp [List.get_eq_getElem, List.getElem_map]
  have heq2 : (⟨p.val, hp2⟩ : Fin (records.map Record.ref).length)
      = ⟨q.val, hq2⟩ := by
    apply hinj
    rw [hgp, hgq, he]
  have hv : p.val = q.val :=
    congrArg (fun x : Fin (records.map Record.ref).length => x.val) heq2
  exact Fin.ext hv

theorem sortByDependsFrom_ok_strong {α ρ : Type} (eqf : α → α → Bool)
    (nodes : List (Node α ρ)) (ts : List (Node α ρ)) (mk : List Mark)
    (h : sortByDependsFrom eqf nodes
      (List.replicate nodes.length Mark.unvisited) = Except.ok (ts, mk)) :
    ValidO eqf ts ∧ ts.Perm nodes := by
  rw [sortByDependsFrom] at h
  cases ht : topLoop eqf nodes (List.finRange nodes.length)
      ⟨List.replicate nodes.length Mark.unvisited, []⟩ with
  | error e => rw [ht] at h; exact absurd h (by simp)
  | ok st' =>
    rw [ht] at h
    have h2 : Except.ok (st'.result.map nodes.get, st'.marks)
        = Except.ok (ts, mk) := h
    have h3 := Except.ok.inj h2
    have hts : st'.result.map nodes.get = ts := congrArg Prod.fst h3
    obtain ⟨hinv', _, _, hperm', _⟩ :=
      topLoop_ok_facts eqf nodes (List.finRange nodes.length) _ st' ht
        (topoInv_initial eqf nodes) (noTemps_initial nodes)
    obtain ⟨_, hpr, hnd, hpw, _, _⟩ := hinv'
    constructor
    · rw [← hts]
      unfold ValidO
      refine List.Pairwise.map nodes.get ?_ hpw
      intro p q hnr
      rw [dependsOnB]
      cases hx : memBy eqf (nodes.get p).depends (nodes.get q).id with
      | false => rfl
      | true => exact absurd hx hnr
    · rw [← hts]
      have hres : st'.result.Perm (List.finRange nodes.length) := by
        rw [List.perm_ext_iff_of_nodup hnd (List.nodup_finRange _)]
        intro a
        constructor
        · intro _; exact List.mem_finRange a
        · intro _; exact (hpr a).mp (hperm' a (List.mem_finRange a))
      have := hres.map nodes.get
      rwa [List.finRange_map_get] at this

/-- C1: for every acyclic input of distinct records, whenever record `M`'s
depends set contains record `N`'s id, `N` appears strictly before `M` in
the sequence `sort` returns: the topological phase establishes dependency
order and the weight-ordering phase never moves a node across a dependency
boundary in either direction. -/
theorem sortR_dependency_order (cfg : SConfig) (records : List Record)
    (out : List Record) (p q : Fin records.length)
    (hnd : (records.map Record.ref).Nodup)
    (hok : sortR cfg records = Except.ok out)
    (hdep : memBy jsEq (serialize cfg (records.get q)).depends
      (serialize cfg (records.get p)).id = true) :
    out.indexOf (records.get p) < out.indexOf (records.get q) := by
  cases hs : sortByDependsFrom jsEq (records.map (serialize cfg))
      (List.replicate (records.map (serialize cfg)).length Mark.unvisited) with
  | error e0 =>
    have hrun : sortR cfg records = Except.error e0 := by
      unfold sortR
      simp only [hs]
    rw [hrun] at hok
    exact absurd hok (by simp)
  | ok pair =>
    have hw : sortByWeight jsEq pair.1
        = Except.ok (sortByWeightOk jsEq pair.1) := by
      cases hw0 : sortByWeight jsEq pair.1 with
      | error e1 =>
        have hrun : sortR cfg records = Except.error e1 := by
          unfold sortR
          simp only [hs, hw0]
        rw [hrun] at hok
        exact absurd hok (by simp)
      | ok weighted =>
        obtain ⟨_, hweq⟩ := sortByWeight_ok_elim jsEq pair.1 weighted hw0
        rw [hweq]
    have hrun : sortR cfg records = Except.ok
        ((sortByWeightOk jsEq pair.1).map deserialize) := by
      unfold sortR
      simp only [hs, hw]
    rw [hrun] at hok
    have hout : out = (sortByWeightOk jsEq pair.1).map deserialize :=
      (Except.ok.inj hok).symm
    obtain ⟨hvts, hpts⟩ := sortByDependsFrom_ok_strong jsEq
      (records.map (serialize cfg)) pair.1 pair.2 (by rw [← hs])
    obtain ⟨hvw, hpw⟩ := sortByWeightOk_valid jsEq pair.1 hvts
    have hwnodes : (sortByWeightOk jsEq pair.1).Perm
        (records.map (serialize cfg)) := hpw.trans hpts
    set nodes := records.map (serialize cfg) with hnodes
    have hlens : nodes.length = records.length := by simp [hnodes]
    have hgetn : ∀ j : Fin records.length,
        nodes.get ⟨j.val, by omega⟩ = serialize cfg (records.get j) := by
      intro j
      simp [hnodes, List.get_eq_getElem, List.getElem_map]
    set p2 : Fin nodes.length := ⟨p.val, by omega⟩ with hp2
    set q2 : Fin nodes.length := ⟨q.val, by omega⟩ with hq2
    have hnp : nodes.get p2 = serialize cfg (records.get p) := hgetn p
    have hnq : nodes.get q2 = serialize cfg (records.get q) := hgetn q
    have hacyc : ¬ HasCycle jsEq nodes :=
      sortByDepends_ok_acyclic jsEq nodes pair (by rw [sortByDepends, ← hs])
    have hpq : p ≠ q := by
      intro he
      subst he
      apply hacyc
      refine ⟨p2, Relation.TransGen.single ?_⟩
      show memBy jsEq (nodes.get p2).depends (nodes.get p2).id = true
      rw [hnp]
      exact hdep
    have hmemw : ∀ j : Fin nodes.length,
        nodes.get j ∈ sortByWeightOk jsEq pair.1 := by
      intro j
      rw [hwnodes.mem_iff]
      exact List.get_mem nodes j.val j.isLt
    have hrne : records.get p ≠ records.get q :=
      get_ne_of_ref_nodup records hnd p q hpq
    have hne : serialize cfg (records.get p) ≠ serialize cfg (records.get q) := by
      intro he
      exact hrne (congrArg Node.node he)
    have hidx : (sortByWeightOk jsEq pair.1).indexOf
          (serialize cfg (records.get p)) <
        (sortByWeightOk jsEq pair.1).indexOf
          (serialize cfg (records.get q)) := by
      apply pairwise_indexOf_lt hvw
      · rw [← hnp]; exact hmemw p2
      · rw [← hnq]; exact hmemw q2
      · exact hne
      · intro hfalse
        have hfb : memBy jsEq (serialize cfg (records.get q)).depends
            (serialize cfg (records.get p)).id = false := hfalse
        rw [hfb] at hdep
        exact absurd hdep (by simp)
    have hinj : ∀ x ∈ sortByWeightOk jsEq pair.1,
        deserialize x = deserialize (serialize cfg (records.get p)) →
        x = serialize cfg (records.get p) := by
      intro x hx hdx
      have hxnodes : x ∈ nodes := hwnodes.subset hx
      rw [hnodes] at hxnodes
      obtain ⟨r, _, hr⟩ := List.mem_map.mp hxnodes
      have hd2 : x.node = records.get p := hdx
      rw [← hr] at hd2 ⊢
      have hsr : (serialize cfg r).node = r := rfl
      rw [hsr] at hd2
      rw [hd2]
    have htrans : out.indexOf (records.get p) =
        (sortByWeightOk jsEq pair.1).indexOf (serialize cfg (records.get p)) := by
      rw [hout]
      have : records.get p = deserialize (serialize cfg (records.get p)) := rfl
      rw [this]
      exact indexOf_map_of_inj _ deserialize _ hinj
    have hinjq : ∀ x ∈ sortByWeightOk jsEq pair.1,
        deserialize x = deserialize (serialize cfg (records.get q)) →
        x = serialize cfg (records.get q) := by
      intro x hx hdx
      have hxnodes : x ∈ nodes := hwnodes.subset hx
      rw [hnodes] at hxnodes
      obtain ⟨r, _, hr⟩ := List.mem_map.mp hxnodes
      have hd2 : x.node = records.get q := hdx
      rw [← hr] at hd2 ⊢
      have hsr : (serialize cfg r).node = r := rfl
      rw [hsr] at hd2
      rw [hd2]
    have htransq : out.indexOf (records.get q) =
        (sortByWeightOk jsEq pair.1).indexOf (serialize cfg (records.get q)) := by
      rw [hout]
      have : records.get q = deserialize (serialize cfg (records.get q)) := rfl
      rw [this]
      exact indexOf_map_of_inj _ deserialize _ hinjq
    rw [htrans, htransq]
    exact hidx

/-- Witness for `sortR_dependency_order` at a two-record chain. -/
theorem sortR_dependency_order_witness :
    ([recX, recY] : List Record).indexOf ([recX, recY].get ⟨0, by decide⟩) <
      [recX, recY].indexOf ([recX, recY].get ⟨1, by decide⟩) :=
  sortR_dependency_order defaultConfig [recX, recY] [recX, recY]
    ⟨0, by decide⟩ ⟨1, by decide⟩ (by decide) (by decide) (by decide)

/-- C6: `sort` returns a new sequence holding exactly the caller's records
(a permutation of the input; the input value itself is unchanged — the
embedding is pure and the source rebinds only its local variable), and no
record is ever mutated: normalization wraps each record in a fresh node
whose `node` field is the record itself, all traversal state lives in the
wrapper marks, and unwrapping returns the very record that went in. -/
theorem sortR_preserves_records (cfg : SConfig) (records : List Record)
    (out : List Record) (hok : sortR cfg records = Except.ok out) :
    records.Perm out ∧ ∀ r : Record, deserialize (serialize cfg r) = r := by
  refine ⟨?_, fun r => rfl⟩
  cases hs : sortByDependsFrom jsEq (records.map (serialize cfg))
      (List.replicate (records.map (serialize cfg)).length Mark.unvisited) with
  | error e0 =>
    have hrun : sortR cfg records = Except.error e0 := by
      unfold sortR
      simp only [hs]
    rw [hrun] at hok
    exact absurd hok (by simp)
  | ok pair =>
    have hw : sortByWeight jsEq pair.1
        = Except.ok (sortByWeightOk jsEq pair.1) := by
      cases hw0 : sortByWeight jsEq pair.1 with
      | error e1 =>
        have hrun : sortR cfg records = Except.error e1 := by
          unfold sortR
          simp only [hs, hw0]
        rw [hrun] at hok
        exact absurd hok (by simp)
      | ok weighted =>
        obtain ⟨_, hweq⟩ := sortByWeight_ok_elim jsEq pair.1 weighted hw0
        rw [hweq]
    have hrun : sortR cfg records = Except.ok
        ((sortByWeightOk jsEq pair.1).map deserialize) := by
      unfold sortR
      simp only [hs, hw]
    rw [hrun] at hok
    have hout : out = (sortByWeightOk jsEq pair.1).map deserialize :=
      (Except.ok.inj hok).symm
    obtain ⟨hvts, hpts⟩ := sortByDependsFrom_ok_strong jsEq
      (records.map (serialize cfg)) pair.1 pair.2 (by rw [← hs])
    obtain ⟨_, hpw⟩ := sortByWeightOk_valid jsEq pair.1 hvts
    have hwnodes : (sortByWeightOk jsEq pair.1).Perm
        (records.map (serialize cfg)) := hpw.trans hpts
    have hmaps : ((records.map (serialize cfg)).map deserialize) = records := by
      rw [List.map_map]
      have : (deserialize ∘ serialize cfg) = fun r : Record => r := by
        funext r
        rfl
      rw [this]
      exact List.map_id records

    rw [hout]
    have := (hwnodes.map deserialize)
    rw [hmaps] at this
    exact this.symm

/-- Witness for `sortR_preserves_records` at the documented scenario. -/
theorem sortR_preserves_records_witness :
    people.Perm [rDonna, rSherry, rTom, rBillie, rJim, rDillon, rChris, rJerk] :=
  (sortR_preserves_records nameCfg people
    [rDonna, rSherry, rTom, rBillie, rJim, rDillon, rChris, rJerk]
    (by decide)).1

/-! ## JS number-order lemmas -/

theorem jltb_asymm {a b : JNum} (h : jltb a b = true) : jltb b a = false := by
  cases a <;> cases b <;> simp [jltb] at h ⊢ <;> omega

theorem notlt_trans {a b c : JNum} (hab : jltb a b = false)
    (hbc : jltb b c = false) : jltb a c = false := by
  cases a <;> cases b <;> cases c <;> simp [jltb] at hab hbc ⊢ <;> omega

/-! ## Insertion lemmas for the weight-pass characterization -/

section InsertLemmas

variable {α ρ : Type}

theorem insertW_perm (mv : Node α ρ) (l : List (Node α ρ)) :
    (insertW mv l).Perm (mv :: l) := by
  induction l with
  | nil => exact List.Perm.refl _
  | cons b bs ih =>
    rw [insertW]
    by_cases hc : jltb b.weight mv.weight = true
    · rw [if_pos hc]
      exact (ih.cons b).trans (List.Perm.swap mv b bs)
    · rw [if_neg hc]

theorem insertW_mem {mv x : Node α ρ} {l : List (Node α ρ)}
    (h : x ∈ insertW mv l) : x = mv ∨ x ∈ l := by
  have := (insertW_perm mv l).mem_iff.mp h
  simpa using this

theorem insertW_sorted (mv : Node α ρ) (l : List (Node α ρ))
    (hs : l.Pairwise (wleW (ρ := ρ))) :
    (insertW mv l).Pairwise wleW := by
  induction l with
  | nil => simp [insertW, List.pairwise_cons]
  | cons b bs ih =>
    rw [List.pairwise_cons] at hs
    obtain ⟨hb, hbs⟩ := hs
    rw [insertW]
    by_cases hc : jltb b.weight mv.weight = true
    · rw [if_pos hc]
      rw [List.pairwise_cons]
      refine ⟨?_, ih hbs⟩
      intro x hx
      rcases insertW_mem hx with hx | hx
      · subst hx
        exact jltb_asymm hc
      · exact hb x hx
    · rw [if_neg hc]
      rw [List.pairwise_cons]
      refine ⟨?_, List.pairwise_cons.mpr ⟨hb, hbs⟩⟩
      intro x hx
      rcases List.mem_cons.mp hx with hx | hx
      · subst hx
        exact eq_false_of_ne_true hc
      · exact notlt_trans (hb x hx) (eq_false_of_ne_true hc)

theorem insertW_split (mv : Node α ρ) (S N : List (Node α ρ))
    (hN : ∀ b ∈ N, jltb b.weight mv.weight = false) :
    insertW mv (S ++ N) = insertW mv S ++ N := by
  induction S with
  | nil =>
    cases N with
    | nil => rfl
    | cons b bs =>
      have hb : jltb b.weight mv.weight = false :=
        hN b (List.mem_cons_self b bs)
      have hcond : ¬ (jltb b.weight mv.weight = true) := by rw [hb]; simp
      rw [List.nil_append]
      simp only [insertW]
      rw [if_neg hcond]
      rfl
  | cons s S' ih =>
    rw [List.cons_append, insertW, insertW]
    by_cases hc : jltb s.weight mv.weight = true
    · rw [if_pos hc, if_pos hc, ih, List.cons_append]
    · rw [if_neg hc, if_neg hc]
      rfl

theorem insertRev_perm (mv : Node α ρ) (l : List (Node α ρ)) :
    (insertRev mv l).Perm (mv :: l) := by
  induction l with
  | nil => exact List.Perm.refl _
  | cons b bs ih =>
    rw [insertRev]
    by_cases hc : jltb mv.weight b.weight = true
    · rw [if_pos hc]
      exact (ih.cons b).trans (List.Perm.swap mv b bs)
    · rw [if_neg hc]

theorem insertRev_mem {mv x : Node α ρ} {l : List (Node α ρ)}
    (h : x ∈ insertRev mv l) : x = mv ∨ x ∈ l := by
  have := (insertRev_perm mv l).mem_iff.mp h
  simpa using this

theorem insertRev_sorted (mv : Node α ρ) (l : List (Node α ρ))
    (hs : l.Pairwise (fun a b : Node α ρ => jltb a.weight b.weight = false)) :
    (insertRev mv l).Pairwise
      (fun a b : Node α ρ => jltb a.weight b.weight = false) := by
  induction l with
  | nil => simp [insertRev, List.pairwise_cons]
  | cons b bs ih =>
    rw [List.pairwise_cons] at hs
    obtain ⟨hb, hbs⟩ := hs
    rw [insertRev]
    by_cases hc : jltb mv.weight b.weight = true
    · rw [if_pos hc]
      rw [List.pairwise_cons]
      refine ⟨?_, ih hbs⟩
      intro x hx
      rcases insertRev_mem hx with hx | hx
      · subst hx
        exact jltb_asymm hc
      · exact hb x hx
    · rw [if_neg hc]
      rw [List.pairwise_cons]
      refine ⟨?_, List.pairwise_cons.mpr ⟨hb, hbs⟩⟩
      intro x hx
      rcases List.mem_cons.mp hx with hx | hx
      · subst hx
        exact eq_false_of_ne_true hc
      · exact notlt_trans (eq_false_of_ne_true hc) (hb x hx)

theorem insertRev_split (mv : Node α ρ) (Pr Z : List (Node α ρ))
    (hZ : ∀ z ∈ Z, jltb mv.weight z.weight = false) :
    insertRev mv (Pr ++ Z) = insertRev mv Pr ++ Z := by
  induction Pr with
  | nil =>
    cases Z with
    | nil => rfl
    | cons z zs =>
      have hz : jltb mv.weight z.weight = false :=
        hZ z (List.mem_cons_self z zs)
      have hcond : ¬ (jltb mv.weight z.weight = true) := by rw [hz]; simp
      rw [List.nil_append]
      simp only [insertRev]
      rw [if_neg hcond]
      rfl
  | cons s S' ih =>
    rw [List.cons_append, insertRev, insertRev]
    by_cases hc : jltb mv.weight s.weight = true
    · rw [if_pos hc, if_pos hc, ih, List.cons_append]
    · rw [if_neg hc, if_neg hc]
      rfl

theorem insertB_perm (mv : Node α ρ) (l : List (Node α ρ)) :
    (insertB mv l).Perm (mv :: l) := by
  rw [insertB]
  refine ((List.reverse_perm _).trans (insertRev_perm mv l.reverse)).trans ?_
  exact (List.reverse_perm l).cons mv

theorem insertB_sorted (mv : Node α ρ) (l : List (Node α ρ))
    (hs : l.Pairwise (wleW (ρ := ρ))) :
    (insertB mv l).Pairwise wleW := by
  rw [insertB, List.pairwise_reverse]
  apply insertRev_sorted
  rw [List.pairwise_reverse]
  have : ∀ a b : Node α ρ, wleW a b → jltb b.weight a.weight = false :=
    fun a b h => h
  exact hs.imp (fun h => h)

theorem insertB_split (mv : Node α ρ) (Z Pr : List (Node α ρ))
    (hZ : ∀ z ∈ Z, jltb mv.weight z.weight = false) :
    insertB mv (Z ++ Pr) = Z ++ insertB mv Pr := by
  rw [insertB, List.reverse_append, insertRev_split mv Pr.reverse Z.reverse
    (fun z hz => hZ z (List.mem_reverse.mp hz)), List.reverse_append,
    List.reverse_reverse, insertB]

end InsertLemmas

theorem jltb_trans {a b c : JNum} (hab : jltb a b = true)
    (hbc : jltb b c = true) : jltb a c = true := by
  cases a <;> cases b <;> cases c <;> simp [jltb] at hab hbc ⊢ <;> omega

/-! ## Exact characterization of the weight passes on dependency-free
arrays: each fired step is an insertion, each pass an insertion sort. -/

section CrawlLemmas

variable {β : Type} [Inhabited β]

theorem decomp_one (arr : List β) (k : Nat) (h : k < arr.length) :
    arr = arr.take k ++ getE arr k :: arr.drop (k + 1) := by
  conv_lhs => rw [← List.take_append_drop k arr]
  congr 1
  rw [List.drop_eq_getElem_cons h]
  congr 1
  exact (getE_eq_getElem arr k h).symm

theorem take_succ_getE (arr : List β) (k : Nat) (h : k < arr.length) :
    arr.take (k + 1) = arr.take k ++ [getE arr k] := by
  rw [List.take_succ, getE_eq_getElem arr k h]
  simp [List.getElem?_eq_getElem h]

/-- A mover whose guard accepts every element before it crawls all the way
down to index 0, shifting the crossed prefix right by one. -/
theorem swapDownAux_crawl (cmp : β → β → Bool) :
    ∀ (C : List β) (D : List β) (mv : β),
    (∀ c ∈ C, cmp mv c = true) → 0 < C.length →
    swapDownAux cmp (C ++ mv :: D) C.length C.length = (mv :: (C ++ D), 0) := by
  intro C
  induction C using List.reverseRecOn with
  | nil => intro D mv _ h0; simp at h0
  | append_singleton C' c ih =>
    intro D mv hg _
    have harr : (C' ++ [c]) ++ mv :: D = C' ++ c :: mv :: D := by simp
    have hlen : (C' ++ [c]).length = C'.length + 1 := by simp
    rw [harr, hlen]
    simp only [swapDownAux]
    rw [show C'.length + 1 - 1 = C'.length from rfl]
    rw [getE_append_succ C' D c mv, getE_append_at C' (mv :: D) c]
    have hgc : cmp mv c = true := hg c (by simp)
    rw [if_pos hgc, listSwap_down_decomp C' D c mv]
    by_cases h0 : C'.length = 0
    · rw [if_pos h0]
      have hC' : C' = [] := List.length_eq_zero.mp h0
      subst hC'
      simp
    · rw [if_neg h0]
      have hg' : ∀ x ∈ C', cmp mv x = true := fun x hx => hg x (by simp [hx])
      rw [ih (c :: D) mv hg' (by omega)]
      simp

/-- A mover whose guard accepts every element after it crawls all the way
up to the last index, shifting the crossed suffix left by one. -/
theorem swapUpAux_crawl (cmp : β → β → Bool) :
    ∀ (D : List β) (C : List β) (mv : β),
    (∀ d ∈ D, cmp mv d = true) → 0 < D.length →
    swapUpAux cmp (C ++ mv :: D) C.length D.length =
      (C ++ D ++ [mv], C.length + D.length) := by
  intro D
  induction D with
  | nil => intro C mv _ h0; simp at h0
  | cons d ds ih =>
    intro C mv hg _
    rw [show (d :: ds).length = ds.length + 1 from rfl]
    simp only [swapUpAux]
    rw [getE_append_at C (d :: ds) mv, getE_append_succ C ds mv d]
    have hgd : cmp mv d = true := hg d (by simp)
    rw [if_pos hgd, listSwap_up_decomp C ds mv d]
    by_cases h0 : ds.length = 0
    · rw [if_pos h0]
      have hds : ds = [] := List.length_eq_zero.mp h0
      subst hds
      simp
    · rw [if_neg h0]
      have hg' : ∀ x ∈ ds, cmp mv x = true := fun x hx => hg x (by simp [hx])
      have harr2 : C ++ d :: mv :: ds = (C ++ [d]) ++ mv :: ds := by simp
      have hpos : C.length + 1 = (C ++ [d]).length := by simp
      rw [harr2, hpos, ih (C ++ [d]) mv hg' (by omega), Prod.mk.injEq]
      constructor
      · simp
      · simp only [List.length_append, List.length_cons, List.length_nil]
        omega

end CrawlLemmas

section PassChar

variable {α ρ : Type} [Inhabited α] [Inhabited ρ] (eqf : α → α → Bool)

/-- The upward (weight-bounded) phase of a negative mover is a front
insertion: starting right before `R ++ T` and allowed at most `R.length`
steps, the mover ends up inserted into `R` by weight. -/
theorem negBubble :
    ∀ (R A T : List (Node α ρ)) (mv : Node α ρ),
    (swapUpAux (negWGuard : Node α ρ → Node α ρ → Bool)
        (A ++ mv :: (R ++ T)) A.length R.length).1 = A ++ insertW mv R ++ T := by
  intro R
  induction R with
  | nil =>
    intro A T mv
    simp [swapUpAux, insertW]
  | cons b bs ih =>
    intro A T mv
    rw [show (b :: bs).length = bs.length + 1 from rfl]
    have harr : A ++ mv :: ((b :: bs) ++ T) = A ++ mv :: b :: (bs ++ T) := by simp
    rw [harr]
    simp only [swapUpAux]
    rw [getE_append_at A (b :: (bs ++ T)) mv, getE_append_succ A (bs ++ T) mv b]
    simp only [negWGuard]
    by_cases hc : jltb b.weight mv.weight = true
    · rw [if_pos hc, listSwap_up_decomp A (bs ++ T) mv b]
      by_cases h0 : bs.length = 0
      · rw [if_pos h0]
        have hbs : bs = [] := List.length_eq_zero.mp h0
        subst hbs
        simp [insertW, hc]
      · rw [if_neg h0]
        have harr2 : A ++ b :: mv :: (bs ++ T) = (A ++ [b]) ++ mv :: (bs ++ T) := by
          simp
        have hpos : A.length + 1 = (A ++ [b]).length := by simp
        rw [harr2, hpos, ih (A ++ [b]) T mv]
        simp [insertW, hc]
    · rw [if_neg hc]
      simp [insertW, hc]

/-- The downward (weight-bounded) phase of a positive mover is a back
insertion: starting right after `A ++ R` and allowed at most `R.length`
steps, the mover ends up inserted into `R` by weight. -/
theorem posBubble :
    ∀ (R A T : List (Node α ρ)) (mv : Node α ρ),
    (swapDownAux (posWGuard : Node α ρ → Node α ρ → Bool)
        (A ++ R ++ mv :: T) (A.length + R.length) R.length).1
      = A ++ insertB mv R ++ T := by
  intro R
  induction R using List.reverseRecOn with
  | nil =>
    intro A T mv
    simp [swapDownAux, insertB, insertRev]
  | append_singleton R' r ih =>
    intro A T mv
    rw [show (R' ++ [r]).length = R'.length + 1 from by simp]
    have harr : A ++ (R' ++ [r]) ++ mv :: T = (A ++ R') ++ r :: mv :: T := by simp
    have hidx : A.length + (R'.length + 1) = (A ++ R').length + 1 := by
      simp only [List.length_append]
      omega
    rw [harr, hidx]
    simp only [swapDownAux]
    rw [show (A ++ R').length + 1 - 1 = (A ++ R').length from rfl]
    rw [getE_append_succ (A ++ R') T r mv, getE_append_at (A ++ R') (mv :: T) r]
    simp only [posWGuard]
    by_cases hc : jltb mv.weight r.weight = true
    · rw [if_pos hc, listSwap_down_decomp (A ++ R') T r mv]
      by_cases h0 : R'.length = 0
      · rw [if_pos h0]
        have hR' : R' = [] := List.length_eq_zero.mp h0
        subst hR'
        simp [insertB, insertRev, hc]
      · rw [if_neg h0]
        have harr2 : (A ++ R') ++ mv :: r :: T = A ++ R' ++ mv :: (r :: T) := by
          simp
        have hlen2 : (A ++ R').length = A.length + R'.length := by simp
        rw [harr2, hlen2, ih A (r :: T) mv]
        simp [insertB, insertRev, hc]
    · rw [if_neg hc]
      simp [insertB, insertRev, hc]

/-- A fired negative-pass step on a dependency-free array is exactly a
weight insertion of the mover into the prefix before it. -/
theorem negStep_decomp (C D : List (Node α ρ)) (mv : Node α ρ)
    (h0 : 0 < C.length)
    (hw : jltb mv.weight jzero = true)
    (hnd : ∀ c ∈ C, memBy eqf mv.depends c.id = false) :
    negStep eqf (C ++ mv :: D) C.length = insertW mv C ++ D := by
  have hget : getE (C ++ mv :: D) C.length = mv := getE_append_at C D mv
  simp only [negStep]
  rw [hget, if_pos hw]
  rw [swapInRange_eq_down (C ++ mv :: D) C.length 0 (negGuard eqf) h0]
  rw [show C.length - 0 = C.length from rfl]
  rw [swapDownAux_crawl (negGuard eqf) C D mv
    (fun c hc => by simp [negGuard, hnd c hc]) h0]
  show (swapInRange (mv :: (C ++ D)) 0 C.length
      (negWGuard : Node α ρ → Node α ρ → Bool)).1 = insertW mv C ++ D
  rw [swapInRange_eq_up (mv :: (C ++ D)) 0 C.length
    (negWGuard : Node α ρ → Node α ρ → Bool) h0]
  rw [show C.length - 0 = C.length from rfl]
  simpa using negBubble C ([] : List (Node α ρ)) D mv

/-- A fired positive-pass step on a dependency-free array is exactly a
weight insertion of the mover into the suffix after it. -/
theorem posStep_decomp (C D : List (Node α ρ)) (mv : Node α ρ)
    (h0 : 0 < D.length)
    (hw : jltb jzero mv.weight = true)
    (hnd : ∀ d ∈ D, memBy eqf d.depends mv.id = false) :
    posStep eqf (C ++ mv :: D) C.length = C ++ insertB mv D := by
  have hget : getE (C ++ mv :: D) C.length = mv := getE_append_at C D mv
  have hlen : (C ++ mv :: D).length - 1 = C.length + D.length := by
    simp only [List.length_append, List.length_cons]
    omega
  simp only [posStep]
  rw [hget, if_pos hw, hlen]
  rw [swapInRange_eq_up (C ++ mv :: D) C.length (C.length + D.length)
    (posGuard eqf) (by omega)]
  rw [show C.length + D.length - C.length = D.length from by omega]
  rw [swapUpAux_crawl (posGuard eqf) D C mv
    (fun d hd => by simp [posGuard, hnd d hd]) h0]
  show (swapInRange (C ++ D ++ [mv]) (C.length + D.length) C.length
      (posWGuard : Node α ρ → Node α ρ → Bool)).1 = C ++ insertB mv D
  rw [swapInRange_eq_down (C ++ D ++ [mv]) (C.length + D.length) C.length
    (posWGuard : Node α ρ → Node α ρ → Bool) (by omega)]
  rw [show C.length + D.length - C.length = D.length from by omega]
  simpa using posBubble D C ([] : List (Node α ρ)) mv

/-- A negative-pass step at a non-negative node does nothing. -/
theorem negStep_skip (arr : List (Node α ρ)) (i : Nat)
    (h : jltb (getE arr i).weight jzero = false) : negStep eqf arr i = arr := by
  simp only [negStep]
  rw [if_neg (by rw [h]; simp)]

/-- A positive-pass step at a non-positive node does nothing. -/
theorem posStep_skip (arr : List (Node α ρ)) (i : Nat)
    (h : jltb jzero (getE arr i).weight = false) : posStep eqf arr i = arr := by
  simp only [posStep]
  rw [if_neg (by rw [h]; simp)]

/-- Invariant of the negative-weight pass on a dependency-free array: after
processing indices `1..k` the array is a weight-sorted block of the
negatives seen so far, then the non-negatives seen so far in input order,
then the untouched tail. -/
theorem negFold_char (arr0 : List (Node α ρ))
    (hnd : ∀ x ∈ arr0, ∀ y ∈ arr0, memBy eqf x.depends y.id = false) :
    ∀ k, k < arr0.length →
    ∃ S : List (Node α ρ),
      (List.range' 1 k).foldl (negStep eqf) arr0
        = S ++ (arr0.take (k + 1)).filter (fun y => !negWB y)
          ++ arr0.drop (k + 1)
      ∧ S.Pairwise wleW ∧ S.Perm ((arr0.take (k + 1)).filter negWB)
      ∧ (∀ x ∈ S, negWB x = true) := by
  intro k
  induction k with
  | zero =>
    intro hk
    cases arr0 with
    | nil => simp at hk
    | cons a rest =>
      by_cases ha : negWB a = true
      · refine ⟨[a], ?_, by simp, ?_, ?_⟩
        · simp [List.filter_cons, ha]
        · simp [List.filter_cons, ha]
        · intro y hy
          rw [List.mem_singleton] at hy
          rw [hy]
          exact ha
      · refine ⟨[], ?_, by simp, ?_, by simp⟩
        · simp [List.filter_cons, eq_false_of_ne_true ha]
        · simp [List.filter_cons, eq_false_of_ne_true ha]
  | succ k ih =>
    intro hk1
    have hk : k < arr0.length := by omega
    obtain ⟨S, hB, hSort, hPerm, hAll⟩ := ih hk
    have hconcat : List.range' 1 (k + 1) = List.range' 1 k ++ [k + 1] := by
      have h1k : 1 + 1 * k = k + 1 := by omega
      rw [List.range'_concat, h1k]
    rw [hconcat, List.foldl_append, List.foldl_cons, List.foldl_nil, hB]
    have hx : arr0.drop (k + 1) = getE arr0 (k + 1) :: arr0.drop (k + 1 + 1) := by
      rw [getE_eq_getElem _ _ hk1]
      exact List.drop_eq_getElem_cons hk1
    rw [hx]
    have hlenSN : (S ++ (arr0.take (k + 1)).filter (fun y => !negWB y)).length
        = k + 1 := by
      have h1 := hPerm.length_eq
      have h2 := (List.filter_append_perm negWB (arr0.take (k + 1))).length_eq
      have h3 : (arr0.take (k + 1)).length = k + 1 := by
        rw [List.length_take]
        omega
      simp only [List.length_append] at h2 ⊢
      omega
    have htake := take_succ_getE arr0 (k + 1) hk1
    by_cases hxw : negWB (getE arr0 (k + 1)) = true
    · have hw' : jltb (getE arr0 (k + 1)).weight jzero = true := by
        simpa [negWB] using hxw
      have hxmem : getE arr0 (k + 1) ∈ arr0 := by
        rw [getE_eq_getElem _ _ hk1]
        exact List.getElem_mem hk1
      have hmemC : ∀ c ∈ S ++ (arr0.take (k + 1)).filter (fun y => !negWB y),
          c ∈ arr0 := by
        intro c hc
        rcases List.mem_append.mp hc with h | h
        · exact List.mem_of_mem_take (List.mem_of_mem_filter (hPerm.mem_iff.mp h))
        · exact List.mem_of_mem_take (List.mem_of_mem_filter h)
      have hfire := negStep_decomp eqf
        (S ++ (arr0.take (k + 1)).filter (fun y => !negWB y))
        (arr0.drop (k + 1 + 1)) (getE arr0 (k + 1))
        (by rw [hlenSN]; omega) hw'
        (fun c hc => hnd (getE arr0 (k + 1)) hxmem c (hmemC c hc))
      rw [hlenSN] at hfire
      rw [hfire]
      have hNle : ∀ b ∈ (arr0.take (k + 1)).filter (fun y => !negWB y),
          jltb b.weight (getE arr0 (k + 1)).weight = false := by
        intro b hb
        have hb0 : jltb b.weight jzero = false := by
          have := (List.mem_filter.mp hb).2
          simpa [negWB] using this
        by_cases hc2 : jltb b.weight (getE arr0 (k + 1)).weight = true
        · exfalso
          have hlt := jltb_trans hc2 hw'
          rw [hlt] at hb0
          exact absurd hb0 (by simp)
        · exact eq_false_of_ne_true hc2
      rw [insertW_split (getE arr0 (k + 1)) S _ hNle]
      refine ⟨insertW (getE arr0 (k + 1)) S, ?_, insertW_sorted _ S hSort, ?_, ?_⟩
      · have hfeq2 : (arr0.take (k + 1 + 1)).filter (fun y => !negWB y)
            = (arr0.take (k + 1)).filter (fun y => !negWB y) := by
          rw [htake, List.filter_append]
          simp [List.filter_cons, hxw]
        rw [hfeq2]
      · have hfeq : (arr0.take (k + 1 + 1)).filter negWB
            = (arr0.take (k + 1)).filter negWB ++ [getE arr0 (k + 1)] := by
          rw [htake, List.filter_append]
          simp [List.filter_cons, hxw]
        rw [hfeq]
        exact (insertW_perm _ S).trans ((hPerm.cons _).trans
          (List.perm_append_singleton _ _).symm)
      · intro y hy
        rcases insertW_mem hy with h | h
        · rw [h]
          exact hxw
        · exact hAll y h
    · have hxw' : jltb (getE arr0 (k + 1)).weight jzero = false := by
        simpa [negWB] using eq_false_of_ne_true hxw
      have hgB := getE_append_at
        (S ++ (arr0.take (k + 1)).filter (fun y => !negWB y))
        (arr0.drop (k + 1 + 1)) (getE arr0 (k + 1))
      rw [hlenSN] at hgB
      have hskip := negStep_skip eqf
        ((S ++ (arr0.take (k + 1)).filter (fun y => !negWB y))
          ++ getE arr0 (k + 1) :: arr0.drop (k + 1 + 1)) (k + 1)
        (by rw [hgB]; exact hxw')
      rw [hskip]
      refine ⟨S, ?_, hSort, ?_, hAll⟩
      · have hfeq2 : (arr0.take (k + 1 + 1)).filter (fun y => !negWB y)
            = (arr0.take (k + 1)).filter (fun y => !negWB y)
              ++ [getE arr0 (k + 1)] := by
          rw [htake, List.filter_append]
          simp [List.filter_cons, eq_false_of_ne_true hxw]
        rw [hfeq2]
        simp
      · have hfeq : (arr0.take (k + 1 + 1)).filter negWB
            = (arr0.take (k + 1)).filter negWB := by
          rw [htake, List.filter_append]
          simp [List.filter_cons, eq_false_of_ne_true hxw]
        rw [hfeq]
        exact hPerm

/-- The negative-weight pass on a dependency-free array: a weight-sorted
block of all negatives, then the non-negatives in input order. -/
theorem negPass_char (arr0 : List (Node α ρ))
    (hnd : ∀ x ∈ arr0, ∀ y ∈ arr0, memBy eqf x.depends y.id = false) :
    ∃ S : List (Node α ρ),
      negPass eqf arr0 = S ++ arr0.filter (fun y => !negWB y)
      ∧ S.Pairwise wleW ∧ S.Perm (arr0.filter negWB)
      ∧ ∀ x ∈ S, negWB x = true := by
  cases arr0 with
  | nil => exact ⟨[], by simp [negPass, negIdxs], by simp, by simp, by simp⟩
  | cons a rest =>
    obtain ⟨S, hB, hs, hp, hall⟩ := negFold_char eqf (a :: rest) hnd
      ((a :: rest).length - 1) (by simp)
    have hlen : (a :: rest).length - 1 + 1 = (a :: rest).length := by
      simp only [List.length_cons]
      omega
    refine ⟨S, ?_, hs, ?_, hall⟩
    · rw [negPass, negIdxs, hB, hlen, List.take_length, List.drop_length]
      simp
    · rw [hlen, List.take_length] at hp
      exact hp

/-- Invariant of the positive-weight pass on a dependency-free array: after
processing indices `length-2` down to `j` the array is the untouched prefix
below `j`, then the non-positives from position `j` on in input order, then
a weight-sorted block of the positives from position `j` on. -/
theorem posFold_char (arr1 : List (Node α ρ))
    (hnd : ∀ x ∈ arr1, ∀ y ∈ arr1, memBy eqf x.depends y.id = false) :
    ∀ t j, j + t + 1 = arr1.length → 1 ≤ j →
    ∃ P : List (Node α ρ),
      ((List.range' j t).reverse).foldl (posStep eqf) arr1
        = arr1.take j ++ (arr1.drop j).filter (fun y => !posWB y) ++ P
      ∧ P.Pairwise wleW ∧ P.Perm ((arr1.drop j).filter posWB)
      ∧ ∀ x ∈ P, posWB x = true := by
  intro t
  induction t with
  | zero =>
    intro j hj _
    have hjlt : j < arr1.length := by omega
    have hdrop : arr1.drop j = [getE arr1 j] := by
      rw [getE_eq_getElem _ _ hjlt, List.drop_eq_getElem_cons hjlt,
        List.drop_eq_nil_of_le (by omega)]
    by_cases hx : posWB (getE arr1 j) = true
    · refine ⟨[getE arr1 j], ?_, by simp, ?_, ?_⟩
      · simp only [List.range'_zero, List.reverse_nil, List.foldl_nil]
        conv_lhs => rw [← List.take_append_drop j arr1]
        rw [hdrop]
        simp [List.filter_cons, hx]
      · rw [hdrop]
        simp [List.filter_cons, hx]
      · intro y hy
        rw [List.mem_singleton] at hy
        rw [hy]
        exact hx
    · refine ⟨[], ?_, by simp, ?_, by simp⟩
      · simp only [List.range'_zero, List.reverse_nil, List.foldl_nil]
        conv_lhs => rw [← List.take_append_drop j arr1]
        rw [hdrop]
        simp [List.filter_cons, eq_false_of_ne_true hx]
      · rw [hdrop]
        simp [List.filter_cons, eq_false_of_ne_true hx]
  | succ t ih =>
    intro j hj hj1
    have hjlt : j < arr1.length := by omega
    have hsplit : (List.range' j (t + 1)).reverse
        = (List.range' (j + 1) t).reverse ++ [j] := by
      rw [List.range'_succ]
      simp
    rw [hsplit, List.foldl_append, List.foldl_cons, List.foldl_nil]
    obtain ⟨P, hB, hs2, hp2, hall2⟩ := ih (j + 1) (by omega) (by omega)
    rw [hB]
    have htake : arr1.take (j + 1) = arr1.take j ++ [getE arr1 j] :=
      take_succ_getE arr1 j hjlt
    rw [htake]
    have hCeq : (arr1.take j ++ [getE arr1 j])
          ++ (arr1.drop (j + 1)).filter (fun y => !posWB y) ++ P
        = arr1.take j ++ getE arr1 j
            :: ((arr1.drop (j + 1)).filter (fun y => !posWB y) ++ P) := by
      simp
    rw [hCeq]
    have hClen : (arr1.take j).length = j := by
      rw [List.length_take]
      omega
    have hdropj : arr1.drop j = getE arr1 j :: arr1.drop (j + 1) := by
      rw [getE_eq_getElem _ _ hjlt]
      exact List.drop_eq_getElem_cons hjlt
    by_cases hxw : posWB (getE arr1 j) = true
    · have hDlen : 0 < ((arr1.drop (j + 1)).filter (fun y => !posWB y)
          ++ P).length := by
        have h1 := hp2.length_eq
        have h2 := (List.filter_append_perm posWB (arr1.drop (j + 1))).length_eq
        have h3 : (arr1.drop (j + 1)).length = t + 1 := by
          rw [List.length_drop]
          omega
        simp only [List.length_append] at h2 ⊢
        omega
      have hw' : jltb jzero (getE arr1 j).weight = true := by
        simpa [posWB] using hxw
      have hxmem : getE arr1 j ∈ arr1 := by
        rw [getE_eq_getElem _ _ hjlt]
        exact List.getElem_mem hjlt
      have hmemD : ∀ d ∈ (arr1.drop (j + 1)).filter (fun y => !posWB y) ++ P,
          d ∈ arr1 := by
        intro d hd
        rcases List.mem_append.mp hd with h | h
        · exact List.mem_of_mem_drop (List.mem_of_mem_filter h)
        · exact List.mem_of_mem_drop (List.mem_of_mem_filter (hp2.mem_iff.mp h))
      have hfire := posStep_decomp eqf (arr1.take j)
        ((arr1.drop (j + 1)).filter (fun y => !posWB y) ++ P) (getE arr1 j)
        hDlen hw' (fun d hd => hnd d (hmemD d hd) (getE arr1 j) hxmem)
      rw [hClen] at hfire
      rw [hfire]
      have hZle : ∀ z ∈ (arr1.drop (j + 1)).filter (fun y => !posWB y),
          jltb (getE arr1 j).weight z.weight = false := by
        intro z hz
        have hz0 : jltb jzero z.weight = false := by
          have := (List.mem_filter.mp hz).2
          simpa [posWB] using this
        by_cases hc2 : jltb (getE arr1 j).weight z.weight = true
        · exfalso
          have hlt := jltb_trans hw' hc2
          rw [hlt] at hz0
          exact absurd hz0 (by simp)
        · exact eq_false_of_ne_true hc2
      rw [insertB_split (getE arr1 j) _ P hZle]
      refine ⟨insertB (getE arr1 j) P, ?_, insertB_sorted _ P hs2, ?_, ?_⟩
      · rw [hdropj]
        simp [List.filter_cons, hxw]
      · rw [hdropj]
        have hfp : (getE arr1 j :: arr1.drop (j + 1)).filter posWB
            = getE arr1 j :: (arr1.drop (j + 1)).filter posWB := by
          simp [List.filter_cons, hxw]
        rw [hfp]
        exact (insertB_perm _ P).trans (hp2.cons _)
      · intro y hy
        have hmem := (insertB_perm (getE arr1 j) P).mem_iff.mp hy
        rcases List.mem_cons.mp hmem with h | h
        · rw [h]
          exact hxw
        · exact hall2 y h
    · have hgB := getE_append_at (arr1.take j)
        ((arr1.drop (j + 1)).filter (fun y => !posWB y) ++ P) (getE arr1 j)
      rw [hClen] at hgB
      have hskip := posStep_skip eqf
        (arr1.take j ++ getE arr1 j
          :: ((arr1.drop (j + 1)).filter (fun y => !posWB y) ++ P)) j
        (by rw [hgB]; simpa [posWB] using eq_false_of_ne_true hxw)
      rw [hskip]
      refine ⟨P, ?_, hs2, ?_, hall2⟩
      · rw [hdropj]
        simp [List.filter_cons, eq_false_of_ne_true hxw]
      · rw [hdropj]
        simpa [List.filter_cons, eq_false_of_ne_true hxw] using hp2

/-- The positive-weight pass on a dependency-free array: the first element
stays put, the non-positives after it keep their order, and all positives
after it collect weight-sorted at the back. -/
theorem posPass_char (arr1 : List (Node α ρ))
    (hnd : ∀ x ∈ arr1, ∀ y ∈ arr1, memBy eqf x.depends y.id = false) :
    ∃ P : List (Node α ρ),
      posPass eqf arr1
        = arr1.take 1 ++ (arr1.drop 1).filter (fun y => !posWB y) ++ P
      ∧ P.Pairwise wleW ∧ P.Perm ((arr1.drop 1).filter posWB)
      ∧ ∀ x ∈ P, posWB x = true := by
  by_cases hlen : 2 ≤ arr1.length
  · have h := posFold_char eqf arr1 hnd (arr1.length - 2) 1 (by omega) (le_refl 1)
    rw [posPass, posIdxs]
    exact h
  · rcases arr1 with _ | ⟨a, rest⟩
    · exact ⟨[], by simp [posPass, posIdxs], by simp, by simp, by simp⟩
    · have hrest : rest = [] := by
        rcases rest with _ | ⟨b, rest2⟩
        · rfl
        · exfalso
          apply hlen
          simp only [List.length_cons]
          omega
      subst hrest
      exact ⟨[], by simp [posPass, posIdxs], by simp, by simp, by simp⟩

end PassChar

/-- Concatenating a sorted all-negative block, an all-zero-like block, and a
sorted all-positive block is sorted. -/
theorem pairwise_wleW_three {α ρ : Type} (S Z P : List (Node α ρ))
    (hS : S.Pairwise wleW) (hP : P.Pairwise wleW)
    (hSneg : ∀ x ∈ S, negWB x = true)
    (hZzero : ∀ z ∈ Z, negWB z = false ∧ posWB z = false)
    (hPpos : ∀ x ∈ P, posWB x = true) :
    (S ++ Z ++ P).Pairwise wleW := by
  have hZ : Z.Pairwise (wleW (ρ := ρ)) := by
    apply List.pairwise_of_forall_mem_list
    intro a ha b hb
    have h1 : jltb b.weight jzero = false := by
      simpa [negWB] using (hZzero b hb).1
    have h2 : jltb jzero a.weight = false := by
      simpa [posWB] using (hZzero a ha).2
    exact notlt_trans h1 h2
  rw [List.append_assoc, List.pairwise_append]
  refine ⟨hS, ?_, ?_⟩
  · rw [List.pairwise_append]
    refine ⟨hZ, hP, ?_⟩
    intro z hz p hp
    have h1 : jltb p.weight jzero = false :=
      jltb_asymm (by simpa [posWB] using hPpos p hp)
    have h2 : jltb jzero z.weight = false := by
      simpa [posWB] using (hZzero z hz).2
    exact notlt_trans h1 h2
  · intro s hs y hy
    have h2 : jltb jzero s.weight = false :=
      jltb_asymm (by simpa [negWB] using hSneg s hs)
    rcases List.mem_append.mp hy with h | h
    · have h1 : jltb y.weight jzero = false := by
        simpa [negWB] using (hZzero y h).1
      exact notlt_trans h1 h2
    · have h1 : jltb y.weight jzero = false :=
        jltb_asymm (by simpa [posWB] using hPpos y h)
      exact notlt_trans h1 h2

/-- On a dependency-free array that either contains a negative weight or
does not start with a positive weight, the weight passes sort by weight. -/
theorem sortByWeightOk_sorted_indep {α ρ : Type} [Inhabited α] [Inhabited ρ]
    (eqf : α → α → Bool) (arr0 : List (Node α ρ))
    (hnd : ∀ x ∈ arr0, ∀ y ∈ arr0, memBy eqf x.depends y.id = false)
    (hside : (∃ x ∈ arr0, negWB x = true) ∨
      (∀ x, arr0.head? = some x → posWB x = false)) :
    (sortByWeightOk eqf arr0).Pairwise wleW := by
  rw [sortByWeightOk]
  obtain ⟨S, hB1, hSsort, hSperm, hSall⟩ := negPass_char eqf arr0 hnd
  have hpermB1 : (negPass eqf arr0).Perm arr0 := by
    rw [hB1]
    exact (hSperm.append_right _).trans (List.filter_append_perm negWB arr0)
  have hndB1 : ∀ x ∈ negPass eqf arr0, ∀ y ∈ negPass eqf arr0,
      memBy eqf x.depends y.id = false := by
    intro x hx y hy
    exact hnd x (hpermB1.mem_iff.mp hx) y (hpermB1.mem_iff.mp hy)
  obtain ⟨P, hB2, hPsort, hPperm, hPall⟩ :=
    posPass_char eqf (negPass eqf arr0) hndB1
  rw [hB2]
  by_cases hex : ∃ x ∈ arr0, negWB x = true
  · obtain ⟨w, hwmem, hwneg⟩ := hex
    cases S with
    | nil =>
      exfalso
      have h0 : arr0.filter negWB = [] := List.Perm.eq_nil hSperm.symm
      have hw' : w ∈ arr0.filter negWB := List.mem_filter.mpr ⟨hwmem, hwneg⟩
      rw [h0] at hw'
      exact absurd hw' (List.not_mem_nil w)
    | cons s0 S2 =>
      have htake1 : (negPass eqf arr0).take 1 = [s0] := by
        rw [hB1]
        simp
      have hdrop1 : (negPass eqf arr0).drop 1
          = S2 ++ arr0.filter (fun y => !negWB y) := by
        rw [hB1]
        simp
      rw [htake1, hdrop1]
      have hS2all : ∀ s ∈ S2, negWB s = true :=
        fun s hs => hSall s (List.mem_cons_of_mem s0 hs)
      have hfS2 : S2.filter (fun y => !posWB y) = S2 := by
        rw [List.filter_eq_self]
        intro s hs
        have h1 : jltb s.weight jzero = true := by
          simpa [negWB] using hS2all s hs
        simp [posWB, jltb_asymm h1]
      rw [List.filter_append, hfS2]
      have hZzero : ∀ z ∈ (arr0.filter (fun y => !negWB y)).filter
          (fun y => !posWB y), negWB z = false ∧ posWB z = false := by
        intro z hz
        obtain ⟨hz1, hz2⟩ := List.mem_filter.mp hz
        obtain ⟨_, hz3⟩ := List.mem_filter.mp hz1
        exact ⟨by simpa using hz3, by simpa using hz2⟩
      have h3 := pairwise_wleW_three (s0 :: S2)
        ((arr0.filter (fun y => !negWB y)).filter (fun y => !posWB y)) P
        hSsort hPsort hSall hZzero hPall
      simpa using h3
  · have hexn : ∀ x ∈ arr0, negWB x ≠ true := by
      intro x hx hxe
      exact hex ⟨x, hx, hxe⟩
    rcases hside with hexA | hlast
    · exact absurd hexA hex
    · have hfilt0 : arr0.filter negWB = [] := by
        rw [List.filter_eq_nil_iff]
        exact hexn
      have hS0 : S = [] := List.Perm.eq_nil (by rw [hfilt0] at hSperm; exact hSperm)
      subst hS0
      have hNN : arr0.filter (fun y => !negWB y) = arr0 := by
        rw [List.filter_eq_self]
        intro a ha
        simp [eq_false_of_ne_true (hexn a ha)]
      have hB1' : negPass eqf arr0 = arr0 := by
        rw [hB1, hNN]
        simp
      rw [hB1']
      cases arr0 with
      | nil => simpa using hPsort
      | cons a0 rest =>
        have ha0 : posWB a0 = false := hlast a0 rfl
        have hZ : ∀ z ∈ a0 :: rest.filter (fun y => !posWB y),
            negWB z = false ∧ posWB z = false := by
          intro z hz
          rcases List.mem_cons.mp hz with h | h
          · rw [h]
            exact ⟨eq_false_of_ne_true
              (hexn a0 (List.mem_cons_self a0 rest)), ha0⟩
          · refine ⟨eq_false_of_ne_true
              (hexn z (List.mem_cons_of_mem a0 (List.mem_of_mem_filter h))), ?_⟩
            have := (List.mem_filter.mp h).2
            simpa using this
        have h3 := pairwise_wleW_three []
          (a0 :: rest.filter (fun y => !posWB y)) P
          (by simp) hPsort (by simp) hZ hPall
        simpa using h3

/-- On fully independent nodes the dependency phase succeeds, returns the
reversed input, and marks everything permanent (run from fresh marks). -/
theorem sortByDependsFrom_indep {α ρ : Type} (eqf : α → α → Bool)
    (nodes : List (Node α ρ))
    (hind : ∀ x ∈ nodes, ∀ y ∈ nodes, memBy eqf y.depends x.id = false) :
    sortByDependsFrom eqf nodes (List.replicate nodes.length Mark.unvisited)
      = Except.ok (nodes.reverse, List.replicate nodes.length Mark.perm) := by
  have hnd2 : ∀ i j : Fin nodes.length,
      memBy eqf (nodes.get j).depends (nodes.get i).id = false := by
    intro i j
    exact hind (nodes.get i) (List.get_mem nodes i.val i.isLt)
      (nodes.get j) (List.get_mem nodes j.val j.isLt)
  have hu : ∀ j : Fin nodes.length, markOf
      (⟨List.replicate nodes.length Mark.unvisited, []⟩ :
        DState nodes.length) j = Mark.unvisited := by
    intro j
    show (List.replicate nodes.length Mark.unvisited).getD j.val Mark.unvisited
        = Mark.unvisited
    have hj : j.val < (List.replicate nodes.length Mark.unvisited).length := by
      simp [j.isLt]
    rw [getD_eq_get _ _ _ hj]
    simp [List.get_eq_getElem, List.getElem_replicate]
  have hloop := topLoop_indep eqf nodes hnd2 (List.finRange nodes.length)
    ⟨List.replicate nodes.length Mark.unvisited, []⟩
    (List.nodup_finRange nodes.length) (fun j _ => hu j) (by simp)
  rw [sortByDependsFrom, hloop]
  rw [foldl_set_perm_finRange]
  simp only [List.append_nil, Except.ok.injEq, Prod.mk.injEq]
  exact ⟨by rw [List.map_reverse, List.finRange_map_get], trivial⟩

/-- C4 (amended): on a dependency-free record sequence of length at least
2 that contains a negative serialized weight or whose last record's
serialized weight is not positive, `sort` succeeds and lists the records
in non-decreasing serialized weight order.  (Unrestricted, the original
claim fails twice over: the positive-weight pass never scans index 0, so a
positive weight stranded at the front of the reversed sequence stays
there; and on dependency-free inputs of length below 2 `sort` throws
`TypeError` from an out-of-range scan instead of returning.) -/
theorem sortR_weight_monotonicity_amended (cfg : SConfig) (records : List Record)
    (hlen2 : 2 ≤ records.length)
    (hfree : ∀ r ∈ records, ∀ s ∈ records,
      memBy jsEq (serialize cfg r).depends (serialize cfg s).id = false)
    (hside : (∃ r ∈ records, negWB (serialize cfg r) = true) ∨
      (∀ r, records.getLast? = some r → posWB (serialize cfg r) = false)) :
    ∃ out, sortR cfg records = Except.ok out ∧
      (out.map (fun r => (serialize cfg r).weight)).Pairwise wle := by
  have hindep : ∀ x ∈ records.map (serialize cfg),
      ∀ y ∈ records.map (serialize cfg), memBy jsEq y.depends x.id = false := by
    intro x hx y hy
    obtain ⟨r, hr, rfl⟩ := List.mem_map.mp hx
    obtain ⟨s, hs, rfl⟩ := List.mem_map.mp hy
    exact hfree s hs r hr
  have hts := sortByDependsFrom_indep jsEq (records.map (serialize cfg)) hindep
  have hw : sortByWeight jsEq (records.map (serialize cfg)).reverse
      = Except.ok (sortByWeightOk jsEq (records.map (serialize cfg)).reverse) :=
    sortByWeight_eq jsEq _ (by simpa using hlen2)
  have hrun : sortR cfg records = Except.ok
      ((sortByWeightOk jsEq (records.map (serialize cfg)).reverse).map
        deserialize) := by
    unfold sortR
    simp only [hts, hw]
  refine ⟨_, hrun, ?_⟩
  have hvalid : ValidO jsEq (records.map (serialize cfg)).reverse := by
    apply List.pairwise_of_forall_mem_list
    intro a ha b hb
    rw [List.mem_reverse] at ha hb
    show dependsOnB jsEq a b = false
    exact hindep b hb a ha
  obtain ⟨_, hperm⟩ :=
    sortByWeightOk_valid jsEq (records.map (serialize cfg)).reverse hvalid
  have hsorted : (sortByWeightOk jsEq
      (records.map (serialize cfg)).reverse).Pairwise wleW := by
    apply sortByWeightOk_sorted_indep jsEq _ ?_ ?_
    · intro x hx y hy
      rw [List.mem_reverse] at hx hy
      exact hindep y hy x hx
    · rcases hside with ⟨r, hr, hneg⟩ | hlast
      · exact Or.inl ⟨serialize cfg r,
          by rw [List.mem_reverse]; exact List.mem_map_of_mem _ hr, hneg⟩
      · refine Or.inr (fun x hx => ?_)
        rw [List.head?_reverse, List.getLast?_map] at hx
        cases hl : records.getLast? with
        | none =>
          rw [hl] at hx
          exact absurd hx (by simp)
        | some r =>
          rw [hl] at hx
          have hxr : serialize cfg r = x := by simpa using hx
          rw [← hxr]
          exact hlast r hl
  have hmapw : (((sortByWeightOk jsEq (records.map (serialize cfg)).reverse).map
        deserialize).map (fun r => (serialize cfg r).weight))
      = (sortByWeightOk jsEq (records.map (serialize cfg)).reverse).map
        (fun x => x.weight) := by
    rw [List.map_map]
    apply List.map_congr_left
    intro x hx
    have hxnodes : x ∈ records.map (serialize cfg) := by
      have hmem := hperm.mem_iff.mp hx
      rw [List.mem_reverse] at hmem
      exact hmem
    obtain ⟨r, _, rfl⟩ := List.mem_map.mp hxnodes
    rfl
  rw [hmapw, List.pairwise_map]
  exact hsorted.imp (fun h => h)

/-- Witness for `sortR_weight_monotonicity_amended` at the two-record
input `c(1), a(0)`: no depends, last weight not positive; the output is
`a(0), c(1)`, non-decreasing. -/
theorem sortR_weight_monotonicity_amended_witness :
    ∃ out, sortR defaultConfig [recC, recA] = Except.ok out ∧
      (out.map (fun r => (serialize defaultConfig r).weight)).Pairwise wle :=
  sortR_weight_monotonicity_amended defaultConfig [recC, recA]
    (by decide)
    (by decide)
    (Or.inr (fun r hr => by
      have hlast : ([recC, recA] : List Record).getLast? = some recA := by decide
      rw [hlast] at hr
      have hra : recA = r := Option.some.inj hr
      rw [← hra]
      decide))

/-- C2 (amended): `sort` raises an error if and only if the depends
relation among the input records contains a cycle or the input has fewer
than two records.  Every raised error is either the cycle error, carrying
the identifier of a node on a cycle (the dependency phase runs first, so
a cycle always surfaces as the cycle error), or the `TypeError` of the
weight phase's out-of-range scan, which hits exactly the cycle-free
inputs of length 0 and 1.  The original claim — no cycle implies `sort`
returns normally — is therefore false for acyclic inputs of length below
2, dangling-dependency singletons included. -/
theorem sortR_error_characterization :
    ∀ (cfg : SConfig) (records : List Record),
    ((∃ e, sortR cfg records = Except.error e) ↔
      (HasCycle jsEq (records.map (serialize cfg)) ∨ records.length < 2)) ∧
    (∀ e, sortR cfg records = Except.error e →
      (∃ m : Fin (records.map (serialize cfg)).length,
        Relation.TransGen (Rel jsEq (records.map (serialize cfg))) m m ∧
        e = Err.cycle ((records.map (serialize cfg)).get m).id) ∨
      (e = Err.typeError ∧ records.length < 2 ∧
        ¬ HasCycle jsEq (records.map (serialize cfg)))) := by
  intro cfg records
  cases hs : sortByDependsFrom jsEq (records.map (serialize cfg))
      (List.replicate (records.map (serialize cfg)).length Mark.unvisited) with
  | error e0 =>
    have hrun : sortR cfg records = Except.error e0 := by
      unfold sortR
      simp only [hs]
    obtain ⟨m, hcyc, hid⟩ :=
      sortByDependsFrom_error_cycle jsEq (records.map (serialize cfg)) e0 hs
    constructor
    · constructor
      · intro _
        exact Or.inl ⟨m, hcyc⟩
      · intro _
        exact ⟨e0, hrun⟩
    · intro e he
      rw [hrun] at he
      have he0 : e0 = e := by simpa using he
      subst he0
      exact Or.inl ⟨m, hcyc, hid⟩
  | ok pair =>
    have hacyc : ¬ HasCycle jsEq (records.map (serialize cfg)) :=
      sortByDepends_ok_acyclic jsEq (records.map (serialize cfg)) pair hs
    have hplen : pair.1.length = records.length := by
      obtain ⟨_, hpts⟩ := sortByDependsFrom_ok_strong jsEq
        (records.map (serialize cfg)) pair.1 pair.2 (by rw [← hs])
      have hl := hpts.length_eq
      simpa using hl
    by_cases h2 : 2 ≤ records.length
    · have hw : sortByWeight jsEq pair.1
          = Except.ok (sortByWeightOk jsEq pair.1) :=
        sortByWeight_eq jsEq pair.1 (by omega)
      have hrun : sortR cfg records = Except.ok
          ((sortByWeightOk jsEq pair.1).map deserialize) := by
        unfold sortR
        simp only [hs, hw]
      constructor
      · constructor
        · rintro ⟨e, he⟩
          rw [hrun] at he
          exact absurd he (by simp)
        · rintro (hcyc | hshort)
          · exact absurd hcyc hacyc
          · omega
      · intro e he
        rw [hrun] at he
        exact absurd he (by simp)
    · have hw : sortByWeight jsEq pair.1 = Except.error Err.typeError :=
        sortByWeight_short jsEq pair.1 (by omega)
      have hrun : sortR cfg records = Except.error Err.typeError := by
        unfold sortR
        simp only [hs, hw]
      constructor
      · constructor
        · intro _
          exact Or.inr (by omega)
        · intro _
          exact ⟨Err.typeError, hrun⟩
      · intro e he
        rw [hrun] at he
        have he0 : Err.typeError = e := by simpa using he
        exact Or.inr ⟨he0.symm, by omega, hacyc⟩

/-- Witness for `sortR_error_characterization`: the documented two-record
cycle `a ↔ b` yields a cycle in the model, extracted from the concrete
cycle error the pipeline returns. -/
theorem sortR_error_characterization_witness :
    HasCycle jsEq ([recCycA, recCycB].map (serialize defaultConfig)) ∨
      ([recCycA, recCycB] : List Record).length < 2 :=
  (sortR_error_characterization defaultConfig [recCycA, recCycB]).1.mp
    ⟨Err.cycle (S "a"), by decide⟩

end DepSorter
